import Mathlib

/-!
CF: management library for configuration files (cf.h)

A shallow embedding of `cf.h` and a verification of its specification.

Modelling conventions.

* A C string is the list of its characters before the terminating NUL, so
  `strcmp(a, b) == 0` is equality of lists and `*s == 0` is `s = []`.
  Where the source builds a string inside a buffer by hand (`CfSetStr`), the
  buffer is modelled cell by cell, terminator included, and read back with
  `cstr`.
* A `char **` array is a list of optional strings, `none` being `NULL`.
* `malloc` may fail. The outcomes of the calls still to come are an explicit
  argument (`Mem`), threaded through every function that allocates.
* `xCfFind` and `xCfAdd` return `-1` for "no entry"; here they return `none`.
  The public functions keep their `int` status (`0` or `-1`).
* A file is the list of its characters, none of them NUL; `fopen` failing is
  `none`. Read errors other than end of file are not modelled.
-/

namespace Cf

/-- A C string: its characters before the terminating NUL. -/
abbrev CStr := List Char

/-- Outcomes of the calls to `malloc` still to come, in order: `true` for
memory, `false` for `NULL`. Past the end of the list every call succeeds. -/
abbrev Mem := List Bool

/-- One call to `malloc`: whether it returned memory, and the remaining outcomes. -/
def malloc : Mem → Bool × Mem
  | [] => (true, [])
  | b :: m => (b, m)

/-- The C string held by a buffer: the characters before the first NUL. -/
def cstr (buf : List Char) : CStr :=
  buf.takeWhile (fun c => c != '\x00')

/-- The source's `struct xcf_entry` (the macro `CF`). -/
structure xcf_entry where
  keys : List (Option CStr)
  values : List (Option CStr)
  max : Int
  deriving DecidableEq, Repr

/-- Size of buffer for file input: 128 + \n + 0. -/
def XCF_BF_SIZE : Nat := 130

/-! ## Private functions: arrays -/

/-- The source's `xCfAlloc`: an array of `max` null pointers, or `none`. -/
def xCfAlloc (max : Int) (m : Mem) : Option (List (Option CStr)) × Mem :=
  match malloc m with
  | (true, m1) => (some (List.replicate max.toNat none), m1)
  | (false, m1) => (none, m1)

/-- The loop of `xCfFind`, at index `i` with `n` iterations left. -/
def xCfFindLoop (arr : List (Option CStr)) (key : CStr) : Nat → Nat → Option Nat
  | 0, _ => none
  | n + 1, i =>
    match arr.getD i none with
    | some s => if s = key then some i else xCfFindLoop arr key n (i + 1)
    | none => xCfFindLoop arr key n (i + 1)

/-- The source's `xCfFind`: the first entry equal to `key`. -/
def xCfFind (arr : List (Option CStr)) (size : Int) (key : CStr) : Option Nat :=
  xCfFindLoop arr key size.toNat 0

/-- The source's `xCfSet`: store a copy of `data` in `arr[entry]`. The flag is
`false` when the allocation failed, and the array is then unchanged. -/
def xCfSet (arr : List (Option CStr)) (data : CStr) (entry : Nat) (m : Mem) :
    Bool × List (Option CStr) × Mem :=
  match malloc m with
  | (true, m1) => (true, arr.set entry (some data), m1)
  | (false, m1) => (false, arr, m1)

/-- The loop of `xCfAdd`, at index `i` with `n` iterations left. -/
def xCfAddLoop (arr : List (Option CStr)) (data : CStr) (m : Mem) :
    Nat → Nat → Option Nat × List (Option CStr) × Mem
  | 0, _ => (none, arr, m)
  | n + 1, i =>
    match arr.getD i none with
    | none =>
      match xCfSet arr data i m with
      | (true, arr1, m1) => (some i, arr1, m1)
      | (false, arr1, m1) => (none, arr1, m1)
    | some _ => xCfAddLoop arr data m n (i + 1)

/-- The source's `xCfAdd`: store `data` in the first unallocated entry. -/
def xCfAdd (arr : List (Option CStr)) (size : Int) (data : CStr) (m : Mem) :
    Option Nat × List (Option CStr) × Mem :=
  xCfAddLoop arr data m size.toNat 0

/-- The source's `xCfDel`: clear `arr[entry]`. -/
def xCfDel (arr : List (Option CStr)) (entry : Nat) : List (Option CStr) :=
  arr.set entry none

/-! ## Private functions: strings -/

/-- The characters `xCfLfSpaces` and `xCfRtSpaces` skip: space and tab. -/
def isBlank (c : Char) : Bool := c == ' ' || c == '\t'

/-- The source's `xCfLfSpaces`: skip spaces on the left. -/
def xCfLfSpaces (s : CStr) : CStr := s.dropWhile isBlank

/-- The source's `xCfRtSpaces`: cut the string after its last non space character. -/
def xCfRtSpaces (s : CStr) : CStr := s.rdropWhile isBlank

/-! ## Core functions -/

/-- The source's `CfCreate`. -/
def CfCreate (max : Int) (m : Mem) : Option xcf_entry × Mem :=
  match malloc m with
  | (true, m1) =>
    match xCfAlloc max m1 with
    | (some keys, m2) =>
      match xCfAlloc max m2 with
      | (some values, m3) => (some ⟨keys, values, max⟩, m3)
      | (none, m3) => (none, m3)
    | (none, m2) => (none, m2)
  | (false, m1) => (none, m1)

/-- The test `*key && *key != '#' && *key != ';'` of `CfSetKey`. -/
def isRegularKey (key : CStr) : Bool :=
  match key with
  | [] => false
  | c :: _ => c != '#' && c != ';'

/-- The source's `CfSetKey`: status (`0` or `-1`), the store afterwards, and
the remaining allocation outcomes. -/
def CfSetKey (cf : xcf_entry) (key value : CStr) (m : Mem) : Int × xcf_entry × Mem :=
  match (if isRegularKey key then xCfFind cf.keys cf.max key else none) with
  | some entry =>
    match xCfSet cf.values value entry m with
    | (true, values1, m1) => (0, { cf with values := values1 }, m1)
    | (false, values1, m1) => (-1, { cf with values := values1 }, m1)
  | none =>
    match xCfAdd cf.keys cf.max key m with
    | (some entry, keys1, m1) =>
      match xCfSet cf.values value entry m1 with
      | (true, values1, m2) => (0, { cf with keys := keys1, values := values1 }, m2)
      | (false, values1, m2) =>
        (-1, { cf with keys := xCfDel keys1 entry, values := values1 }, m2)
    | (none, keys1, m1) => (-1, { cf with keys := keys1 }, m1)

/-- The source's `CfGetKey`: the raw value of a key, or `none` for `NULL`. -/
def CfGetKey (cf : xcf_entry) (key : CStr) : Option CStr :=
  match xCfFind cf.keys cf.max key with
  | some entry => cf.values.getD entry none
  | none => none

/-! ## Get and set functions -/

/-- The double quote character. -/
def dquote : Char := Char.ofNat 34

/-- The source's `CfGetBool`. -/
def CfGetBool (cf : xcf_entry) (key : CStr) (dflt : Int) : Int :=
  match CfGetKey cf key with
  | some value =>
    if value = "true".toList then 1
    else if value = "false".toList then 0
    else dflt
  | none => dflt

/-- Number of values of an `unsigned int`. -/
def UINT_MOD : Nat := 2 ^ 32

/-- The loop of `CfGetUint`: the value accumulated and the rest of the string. -/
def CfGetUintLoop : CStr → Nat → Nat × CStr
  | [], val => (val, [])
  | c :: cs, val =>
    if c.isDigit then
      CfGetUintLoop cs (((val * 10) % UINT_MOD + (c.toNat - '0'.toNat)) % UINT_MOD)
    else (val, c :: cs)

/-- The source's `CfGetUint`. -/
def CfGetUint (cf : xcf_entry) (key : CStr) (dflt : Nat) : Nat :=
  match CfGetKey cf key with
  | some value =>
    match CfGetUintLoop value 0 with
    | (val, []) => val
    | (_, _ :: _) => dflt
  | none => dflt

/-- A write through the pointer `CfGetKey` returned: the string stored for
`key` becomes `data`. -/
def pokeValue (cf : xcf_entry) (key data : CStr) : xcf_entry :=
  match xCfFind cf.keys cf.max key with
  | some entry => { cf with values := cf.values.set entry (some data) }
  | none => cf

/-- The source's `CfGetStr`: the string returned, and the store afterwards
(the source cuts the trailing quote off the stored string itself). -/
def CfGetStr (cf : xcf_entry) (key dflt : CStr) : CStr × xcf_entry :=
  match CfGetKey cf key with
  | some value =>
    if value.head? = some dquote then
      if 2 ≤ value.length ∧ value.getLast? = some dquote then
        (value.dropLast.tail, pokeValue cf key value.dropLast)
      else (dflt, cf)
    else (value, cf)
  | none => (dflt, cf)

/-- The source's `CfSetBool`. -/
def CfSetBool (cf : xcf_entry) (key : CStr) (value : Int) (m : Mem) : Int × xcf_entry × Mem :=
  CfSetKey cf key (if value ≠ 0 then "true".toList else "false".toList) m

/-- The library's `strcpy(buf + off, src)`: the characters of `src` and the
terminating NUL written into `buf` from cell `off` on. -/
def strcpy (buf : List Char) (off : Nat) (src : CStr) : List Char :=
  buf.take off ++ (src ++ ['\x00']) ++ buf.drop (off + src.length + 1)

/-- The buffer `tmp` that `CfSetStr` builds for `value`, all `size` cells of it. -/
def CfSetStrBuf (value : CStr) : List Char :=
  let size := value.length + 2
  let tmp := List.replicate size '\x00'
  let tmp := tmp.set 0 dquote
  let tmp := strcpy tmp 1 value
  tmp.set (size - 2) dquote

/-- The source's `CfSetStr`. -/
def CfSetStr (cf : xcf_entry) (key value : CStr) (m : Mem) : Int × xcf_entry × Mem :=
  match malloc m with
  | (true, m1) => CfSetKey cf key (cstr (CfSetStrBuf value)) m1
  | (false, m1) => (-1, cf, m1)

/-! ## File I/O functions -/

/-- What one slot contributes to the file written by `CfWrite`. A slot with a
key and no value does not occur in a store built by the library (printing it
is undefined in C); nothing is emitted for its value here. -/
def CfWriteSlot (k : Option CStr) (v : Option CStr) : List Char :=
  match k with
  | some key =>
    match key with
    | [] => ['\n']
    | c :: _ =>
      if c != '#' && c != ';' then key ++ " = ".toList ++ v.getD [] ++ ['\n']
      else key ++ " ".toList ++ v.getD [] ++ ['\n']
  | none => []

/-- The loop of `CfWrite`, at index `i` with `n` iterations left. -/
def CfWriteLoop (arrk arrv : List (Option CStr)) : Nat → Nat → List Char
  | 0, _ => []
  | n + 1, i => CfWriteSlot (arrk.getD i none) (arrv.getD i none) ++ CfWriteLoop arrk arrv n (i + 1)

/-- The text `CfWrite` sends to the file once it is open. -/
def CfWriteText (cf : xcf_entry) : List Char :=
  CfWriteLoop cf.keys cf.values cf.max.toNat 0

/-- The source's `CfWrite`: status and the file written (`none` when `fopen` failed). -/
def CfWrite (cf : xcf_entry) (fopenOk fcloseOk : Bool) : Int × Option (List Char) :=
  if fopenOk then (if fcloseOk then 0 else -1, some (CfWriteText cf))
  else (-1, none)

/-- The characters read by `fgets` with room for `k` of them, and the rest of the file. -/
def fgetsLoop : Nat → List Char → List Char × List Char
  | 0, fp => ([], fp)
  | _ + 1, [] => ([], [])
  | k + 1, c :: fp =>
    if c = '\n' then ([c], fp)
    else ((c :: (fgetsLoop k fp).1), (fgetsLoop k fp).2)

/-- The library's `fgets(buf, n, fp)`: `none` at end of file, else the string
read (at most `n - 1` characters, stopping after a newline) and the rest of the file. -/
def fgets (n : Nat) (fp : List Char) : Option (CStr × List Char) :=
  match fp with
  | [] => none
  | _ :: _ => some (fgetsLoop (n - 1) fp)

/-- Valid characters for key names: A..Z a..z 0..9 . _ - -/
def isKeyChar (c : Char) : Bool :=
  c.isAlphanum || c == '.' || c == '_' || c == '-'

/-- The part of the body of the loop of `CfRead` that handles a comment or an
empty line `bf` (already trimmed). -/
def CfReadComment (cf : xcf_entry) (bf : CStr) (cmt : Int) (m : Mem) : Int × xcf_entry × Mem :=
  if cmt ≠ 0 then
    let cmt_key : CStr := bf.take 1
    let bf1 := match bf with
      | [] => []
      | _ :: t => xCfLfSpaces t
    match CfSetKey cf cmt_key bf1 m with
    | (r, cf1, m1) => (if r ≠ 0 then -1 else 0, cf1, m1)
  else (0, cf, m)

/-- The part of the body of the loop of `CfRead` that handles a key / value
line `bf` (already trimmed). -/
def CfReadPair (cf : xcf_entry) (bf : CStr) (m : Mem) : Int × xcf_entry × Mem :=
  let key := bf.takeWhile isKeyChar
  let bf1 := bf.dropWhile isKeyChar
  match bf1 with
  | [] => (-1, cf, m)
  | k :: bf2 =>
    if key = [] ∨ (k ≠ ' ' ∧ k ≠ '\t' ∧ k ≠ '=') then (-1, cf, m)
    else
      let afterEq : Option CStr :=
        if k ≠ '=' then
          match xCfLfSpaces bf2 with
          | [] => none
          | e :: bf3 => if e ≠ '=' then none else some bf3
        else some bf2
      match afterEq with
      | none => (-1, cf, m)
      | some bf4 =>
        match xCfLfSpaces bf4 with
        | [] => (-1, cf, m)
        | v :: vs =>
          match CfSetKey cf key (v :: vs) m with
          | (r, cf1, m1) => (if r ≠ 0 then -1 else 0, cf1, m1)

/-- The body of the loop of `CfRead` for the string `buf` that `fgets` read:
`err` (`-1` when the loop breaks), the store and the allocation outcomes left. -/
def CfReadLine (cf : xcf_entry) (buf : CStr) (cmt : Int) (m : Mem) : Int × xcf_entry × Mem :=
  let k := buf.length
  if buf.getLast? ≠ some '\n' ∧ k = XCF_BF_SIZE - 1 then (-1, cf, m)
  else
    let line := if buf.getLast? = some '\n' then buf.dropLast else buf
    let bf := xCfRtSpaces (xCfLfSpaces line)
    match bf with
    | [] => CfReadComment cf bf cmt m
    | c :: _ =>
      if c = '#' ∨ c = ';' then CfReadComment cf bf cmt m
      else CfReadPair cf bf m

/-- The loop of `CfRead` over the open file `fp`; `fuel` bounds the number of
calls to `fgets` (each one takes at least one character, so the length of the
file plus one is enough). -/
def CfReadLoop : Nat → xcf_entry → List Char → Int → Mem → Int × xcf_entry × Mem
  | 0, cf, _, _, m => (0, cf, m)
  | fuel + 1, cf, fp, cmt, m =>
    match fgets XCF_BF_SIZE fp with
    | none => (0, cf, m)
    | some (buf, fp1) =>
      match CfReadLine cf buf cmt m with
      | (err, cf1, m1) =>
        if err ≠ 0 then (err, cf1, m1)
        else CfReadLoop fuel cf1 fp1 cmt m1

/-- The source's `CfRead`, on the contents of the file (`none` when `fopen` fails). -/
def CfRead (cf : xcf_entry) (file : Option (List Char)) (cmt : Int) (m : Mem) :
    Int × xcf_entry × Mem :=
  match file with
  | some fp => CfReadLoop (fp.length + 1) cf fp cmt m
  | none => (-1, cf, m)

/-! ## Well-formed stores -/

/-- Both arrays of the store have `max` cells, as `CfCreate` allocates them. -/
def WellFormed (cf : xcf_entry) : Prop :=
  cf.keys.length = cf.max.toNat ∧ cf.values.length = cf.max.toNat

instance (cf : xcf_entry) : Decidable (WellFormed cf) := by
  unfold WellFormed; infer_instance

/-- Number of occupied slots: the keys that are not `NULL`. -/
def occupied (cf : xcf_entry) : Nat :=
  cf.keys.countP Option.isSome

/-- A sequence of calls to `CfSetKey`, one for each (key, value) pair of the
list in order: the status of each call, the store and the allocation outcomes left. -/
def CfSetKeyAll : xcf_entry → List (CStr × CStr) → Mem → List Int × xcf_entry × Mem
  | cf, [], m => ([], cf, m)
  | cf, kv :: kvs, m =>
    ((CfSetKey cf kv.1 kv.2 m).1 ::
        (CfSetKeyAll (CfSetKey cf kv.1 kv.2 m).2.1 kvs (CfSetKey cf kv.1 kv.2 m).2.2).1,
      (CfSetKeyAll (CfSetKey cf kv.1 kv.2 m).2.1 kvs (CfSetKey cf kv.1 kv.2 m).2.2).2)

/-- A valid key name: non-empty, made of the characters A..Z a..z 0..9 . _ - -/
def validKeyName (key : CStr) : Bool :=
  key != [] && key.all isKeyChar

/-- No slot holds a key without a value. -/
def NoKeyWithoutValue (cf : xcf_entry) : Prop :=
  ∀ t, cf.keys.getD t none ≠ none → cf.values.getD t none ≠ none

/-- The number a string of decimal digits denotes. -/
def decimalValue (v : CStr) : Nat :=
  Nat.ofDigits 10 (v.reverse.map (fun c => c.toNat - '0'.toNat))

/-! ## Stores built by the library, and what a file can carry -/

/-- An array of `n` cells: the strings `xs` in the first cells, `NULL` in the others. -/
def slots (n : Nat) (xs : List CStr) : List (Option CStr) :=
  xs.map some ++ List.replicate (n - xs.length) none

/-- The store of `max` slots whose first slots hold the entries `es`, in order,
and whose other slots are free. -/
def storeOf (max : Int) (es : List (CStr × CStr)) : xcf_entry :=
  ⟨slots max.toNat (es.map Prod.fst), slots max.toNat (es.map Prod.snd), max⟩

/-- The entries of a store: the (key, value) pairs of its occupied slots, in slot order. -/
def entries (cf : xcf_entry) : List (CStr × CStr) :=
  (cf.keys.zip cf.values).filterMap (fun kv => kv.1.map (fun k => (k, kv.2.getD [])))

/-- The stores reachable through the public setters from a store made by `CfCreate`. -/
inductive Reachable : xcf_entry → Prop
  | create (max : Int) (m : Mem) (cf : xcf_entry) :
      (CfCreate max m).1 = some cf → Reachable cf
  | setKey (cf : xcf_entry) (key value : CStr) (m : Mem) :
      Reachable cf → Reachable (CfSetKey cf key value m).2.1
  | setBool (cf : xcf_entry) (key : CStr) (value : Int) (m : Mem) :
      Reachable cf → Reachable (CfSetBool cf key value m).2.1
  | setStr (cf : xcf_entry) (key value : CStr) (m : Mem) :
      Reachable cf → Reachable (CfSetStr cf key value m).2.1

/-- The string neither starts nor ends with a space or a tab. -/
def noBlankEnds (v : CStr) : Bool :=
  v.head?.all (fun c => !isBlank c) && v.getLast?.all (fun c => !isBlank c)

/-- A value that fits on one line of a file: no newline in it, and neither a
space nor a tab at its ends. -/
def lineValue (v : CStr) : Bool :=
  noBlankEnds v && v.all (fun c => c != '\n')

/-- The entries that `CfRead` reads back as they are from the line `CfWrite`
emits for them: a valid key name with a non-empty line value, on a line of at most 128
characters; a comment marker `#` or `;` with its text, on a line of at most
128 characters; or the empty key with the empty value (a blank line). -/
def fileEntry (e : CStr × CStr) : Bool :=
  (validKeyName e.1 && e.2 != [] && lineValue e.2 && e.1.length + 3 + e.2.length ≤ 128) ||
    ((e.1 == ['#'] || e.1 == [';']) && lineValue e.2 && 2 + e.2.length ≤ 128) ||
    (e.1 == [] && e.2 == [])

/-- The keys that `CfSetKey` looks up are pairwise distinct. -/
def regularKeysDistinct (es : List (CStr × CStr)) : Prop :=
  ((es.map Prod.fst).filter isRegularKey).Nodup

instance (es : List (CStr × CStr)) : Decidable (regularKeysDistinct es) := by
  unfold regularKeysDistinct; infer_instance

/-! ## Lines of a file -/

/-- A line after trimming: without the spaces and tabs at its two ends. -/
def trim (s : CStr) : CStr := xCfRtSpaces (xCfLfSpaces s)

/-- The text of a file made of the given lines, each one ended by a newline. -/
def unlines (ls : List CStr) : List Char :=
  ls.flatMap (fun l => l ++ ['\n'])

/-- A line proper: no newline inside it. -/
def noNewline (l : CStr) : Prop := ∀ c ∈ l, c ≠ '\n'

instance (l : CStr) : Decidable (noNewline l) := by
  unfold noNewline; infer_instance

/-- A line that after trimming is empty. -/
def isBlankLine (l : CStr) : Bool := trim l == []

/-- A line that after trimming starts with `#` or `;`. -/
def isCommentLine (l : CStr) : Bool :=
  match trim l with
  | c :: _ => c == '#' || c == ';'
  | [] => false

/-- A trimmed key / value line that is malformed: it does not start with a key
character, or the key is followed by a character other than space, tab or `=`,
or no `=` follows the key (after spaces and tabs), or nothing follows the `=`. -/
def malformedLine (t : CStr) : Bool :=
  t.takeWhile isKeyChar == [] ||
    (match t.dropWhile isKeyChar with
      | c :: _ => c != ' ' && c != '\t' && c != '='
      | [] => false) ||
    (xCfLfSpaces (t.dropWhile isKeyChar)).head? != some '=' ||
    xCfLfSpaces (xCfLfSpaces (t.dropWhile isKeyChar)).tail == []

/-- The test of `CfRead` for a line that is too long: the string read does not
end with a newline and fills the buffer. -/
def lineTooLong (buf : CStr) : Bool :=
  buf.getLast? != some '\n' && buf.length == XCF_BF_SIZE - 1

/-- The strings that the successive calls of `fgets` in the loop of `CfRead`
read from a file, as long as the loop goes on; `fuel` bounds their number. -/
def fgetsAll : Nat → List Char → List CStr
  | 0, _ => []
  | fuel + 1, fp =>
    match fgets XCF_BF_SIZE fp with
    | none => []
    | some (buf, fp1) => buf :: fgetsAll fuel fp1

/-- The key begins with a comment character, `#` or `;`. -/
def beginsWithMarker (key : CStr) : Bool :=
  match key with
  | c :: _ => c == '#' || c == ';'
  | [] => false

/-- The line of the serialized form for one entry: a bare newline for the
empty key, key, space and value for a key that begins with `#` or `;`, and
key, ` = ` and value for every other key. -/
def entryLine (e : CStr × CStr) : List Char :=
  if e.1 = [] then ['\n']
  else if beginsWithMarker e.1 then e.1 ++ " ".toList ++ e.2 ++ ['\n']
  else e.1 ++ " = ".toList ++ e.2 ++ ['\n']

/-- The stores reachable from a store made by `CfCreate` through `CfSetKey`,
`CfSetBool`, `CfSetStr` and `CfRead`. -/
inductive ReachableRead : xcf_entry → Prop
  | create (max : Int) (m : Mem) (cf : xcf_entry) :
      (CfCreate max m).1 = some cf → ReachableRead cf
  | setKey (cf : xcf_entry) (key value : CStr) (m : Mem) :
      ReachableRead cf → ReachableRead (CfSetKey cf key value m).2.1
  | setBool (cf : xcf_entry) (key : CStr) (value : Int) (m : Mem) :
      ReachableRead cf → ReachableRead (CfSetBool cf key value m).2.1
  | setStr (cf : xcf_entry) (key value : CStr) (m : Mem) :
      ReachableRead cf → ReachableRead (CfSetStr cf key value m).2.1
  | read (cf : xcf_entry) (file : Option (List Char)) (cmt : Int) (m : Mem) :
      ReachableRead cf → ReachableRead (CfRead cf file cmt m).2.1

/-- The occupied slots of the store come first, each with a value, and the
keys that `CfSetKey` looks up are pairwise distinct. -/
def StoreInv (cf : xcf_entry) : Prop :=
  ∃ es, cf = storeOf cf.max es ∧ es.length ≤ cf.max.toNat ∧ regularKeysDistinct es

/-! ## The private array functions -/

theorem xCfFindLoop_some {arr : List (Option CStr)} {key : CStr} :
    ∀ {n i j : Nat}, xCfFindLoop arr key n i = some j →
      i ≤ j ∧ j < i + n ∧ arr.getD j none = some key ∧
        ∀ t, i ≤ t → t < j → arr.getD t none ≠ some key := by
  intro n
  induction n with
  | zero => intro i j h; simp [xCfFindLoop] at h
  | succ n ih =>
    intro i j h
    unfold xCfFindLoop at h
    cases hi : arr.getD i none with
    | none =>
      rw [hi] at h
      obtain ⟨h1, h2, h3, h4⟩ := ih h
      refine ⟨by omega, by omega, h3, ?_⟩
      intro t ht1 ht2
      rcases Nat.eq_or_lt_of_le ht1 with e | l
      · subst e; rw [hi]; simp
      · exact h4 t l ht2
    | some s =>
      rw [hi] at h
      by_cases hs : s = key
      · simp only [hs, if_true, Option.some.injEq] at h
        subst h
        exact ⟨le_refl _, by omega, by rw [hi, hs], fun t h1 h2 => by omega⟩
      · simp only [hs, if_false] at h
        obtain ⟨h1, h2, h3, h4⟩ := ih h
        refine ⟨by omega, by omega, h3, ?_⟩
        intro t ht1 ht2
        rcases Nat.eq_or_lt_of_le ht1 with e | l
        · subst e; rw [hi]; simpa using hs
        · exact h4 t l ht2

theorem xCfFindLoop_none {arr : List (Option CStr)} {key : CStr} :
    ∀ {n i : Nat}, xCfFindLoop arr key n i = none →
      ∀ t, i ≤ t → t < i + n → arr.getD t none ≠ some key := by
  intro n
  induction n with
  | zero => intro i _ t h1 h2; omega
  | succ n ih =>
    intro i h t ht1 ht2
    unfold xCfFindLoop at h
    cases hi : arr.getD i none with
    | none =>
      rw [hi] at h
      rcases Nat.eq_or_lt_of_le ht1 with e | l
      · subst e; rw [hi]; simp
      · exact ih h t l (by omega)
    | some s =>
      rw [hi] at h
      by_cases hs : s = key
      · simp [hs] at h
      · simp only [hs, if_false] at h
        rcases Nat.eq_or_lt_of_le ht1 with e | l
        · subst e; rw [hi]; simpa using hs
        · exact ih h t l (by omega)

theorem xCfFindLoop_first {arr : List (Option CStr)} {key : CStr} :
    ∀ {n i j : Nat}, i ≤ j → j < i + n → arr.getD j none = some key →
      (∀ t, i ≤ t → t < j → arr.getD t none ≠ some key) →
      xCfFindLoop arr key n i = some j := by
  intro n i j h1 h2 h3 h4
  cases h : xCfFindLoop arr key n i with
  | none => exact absurd h3 (xCfFindLoop_none h j h1 h2)
  | some j2 =>
    obtain ⟨a1, a2, a3, a4⟩ := xCfFindLoop_some h
    rcases Nat.lt_trichotomy j j2 with l | e | g
    · exact absurd h3 (a4 j h1 l)
    · rw [e]
    · exact absurd a3 (h4 j2 a1 g)

theorem xCfSet_true {arr arr1 : List (Option CStr)} {data : CStr} {entry : Nat} {m m1 : Mem}
    (h : xCfSet arr data entry m = (true, arr1, m1)) :
    arr1 = arr.set entry (some data) ∧ malloc m = (true, m1) := by
  unfold xCfSet at h
  rcases hm : malloc m with ⟨b, m2⟩
  rw [hm] at h
  cases b <;> simp at h
  exact ⟨h.1.symm, by rw [h.2]⟩

theorem xCfSet_false {arr arr1 : List (Option CStr)} {data : CStr} {entry : Nat} {m m1 : Mem}
    (h : xCfSet arr data entry m = (false, arr1, m1)) :
    arr1 = arr ∧ malloc m = (false, m1) := by
  unfold xCfSet at h
  rcases hm : malloc m with ⟨b, m2⟩
  rw [hm] at h
  cases b <;> simp at h
  exact ⟨h.1.symm, by rw [h.2]⟩

theorem xCfAddLoop_some {arr arr1 : List (Option CStr)} {data : CStr} {m m1 : Mem} :
    ∀ {n i j : Nat}, xCfAddLoop arr data m n i = (some j, arr1, m1) →
      i ≤ j ∧ j < i + n ∧ arr.getD j none = none ∧
        (∀ t, i ≤ t → t < j → arr.getD t none ≠ none) ∧
        arr1 = arr.set j (some data) ∧ malloc m = (true, m1) := by
  intro n
  induction n with
  | zero => intro i j h; simp [xCfAddLoop] at h
  | succ n ih =>
    intro i j h
    unfold xCfAddLoop at h
    cases hi : arr.getD i none with
    | none =>
      rw [hi] at h
      rcases hs : xCfSet arr data i m with ⟨b, arr2, m2⟩
      rw [hs] at h
      cases b
      · simp at h
      · simp only [Prod.mk.injEq, Option.some.injEq] at h
        obtain ⟨e1, e2, e3⟩ := h
        subst e1 e2 e3
        obtain ⟨a1, a2⟩ := xCfSet_true hs
        exact ⟨le_refl _, by omega, hi, fun t h1 h2 => by omega, a1, a2⟩
    | some s =>
      rw [hi] at h
      obtain ⟨h1, h2, h3, h4, h5, h6⟩ := ih h
      refine ⟨by omega, by omega, h3, ?_, h5, h6⟩
      intro t ht1 ht2
      rcases Nat.eq_or_lt_of_le ht1 with e | l
      · subst e; rw [hi]; simp
      · exact h4 t l ht2

theorem xCfAddLoop_none {arr arr1 : List (Option CStr)} {data : CStr} {m m1 : Mem} :
    ∀ {n i : Nat}, xCfAddLoop arr data m n i = (none, arr1, m1) →
      arr1 = arr ∧
        (((∀ t, i ≤ t → t < i + n → arr.getD t none ≠ none) ∧ m1 = m) ∨
          ((∃ j, i ≤ j ∧ j < i + n ∧ arr.getD j none = none) ∧ malloc m = (false, m1))) := by
  intro n
  induction n with
  | zero =>
    intro i h
    simp only [xCfAddLoop, Prod.mk.injEq, true_and] at h
    exact ⟨h.1.symm, Or.inl ⟨fun t h1 h2 => by omega, h.2.symm⟩⟩
  | succ n ih =>
    intro i h
    unfold xCfAddLoop at h
    cases hi : arr.getD i none with
    | none =>
      rw [hi] at h
      rcases hs : xCfSet arr data i m with ⟨b, arr2, m2⟩
      rw [hs] at h
      cases b
      · simp only [Prod.mk.injEq, true_and] at h
        obtain ⟨e2, e3⟩ := h
        subst e2 e3
        obtain ⟨a1, a2⟩ := xCfSet_false hs
        exact ⟨a1, Or.inr ⟨⟨i, le_refl _, by omega, hi⟩, a2⟩⟩
      · simp at h
    | some s =>
      rw [hi] at h
      obtain ⟨h1, h2⟩ := ih h
      refine ⟨h1, ?_⟩
      rcases h2 with ⟨h3, h4⟩ | ⟨⟨j, h3, h4, h5⟩, h6⟩
      · left
        refine ⟨?_, h4⟩
        intro t ht1 ht2
        rcases Nat.eq_or_lt_of_le ht1 with e | l
        · subst e; rw [hi]; simp
        · exact h3 t l (by omega)
      · right
        exact ⟨⟨j, by omega, by omega, h5⟩, h6⟩

theorem xCfAddLoop_full {arr : List (Option CStr)} (data : CStr) (m : Mem) :
    ∀ {n i : Nat}, (∀ t, i ≤ t → t < i + n → arr.getD t none ≠ none) →
      xCfAddLoop arr data m n i = (none, arr, m) := by
  intro n
  induction n with
  | zero => intro i _; rfl
  | succ n ih =>
    intro i h
    unfold xCfAddLoop
    cases hi : arr.getD i none with
    | none => exact absurd hi (h i (le_refl _) (by omega))
    | some s => exact ih (fun t h1 h2 => h t (by omega) (by omega))

theorem xCfAddLoop_free {arr : List (Option CStr)} (data : CStr) {m : Mem} :
    ∀ {n i j : Nat}, i ≤ j → j < i + n → arr.getD j none = none →
      (∀ t, i ≤ t → t < j → arr.getD t none ≠ none) →
      xCfAddLoop arr data m n i =
        ((if (malloc m).1 then some j else none),
          (if (malloc m).1 then arr.set j (some data) else arr), (malloc m).2) := by
  intro n
  induction n with
  | zero => intro i j h1 h2; omega
  | succ n ih =>
    intro i j h1 h2 h3 h4
    unfold xCfAddLoop
    cases hi : arr.getD i none with
    | none =>
      have hij : i = j := by
        rcases Nat.eq_or_lt_of_le h1 with e | l
        · exact e
        · exact absurd hi (h4 i (le_refl _) l)
      subst hij
      simp only []
      unfold xCfSet
      rcases hm : malloc m with ⟨b, m2⟩
      cases b <;> simp
    | some s =>
      have hij : i < j := by
        rcases Nat.eq_or_lt_of_le h1 with e | l
        · subst e; rw [hi] at h3; simp at h3
        · exact l
      exact ih hij (by omega) h3 (fun t a b => h4 t (by omega) b)

/-! ## Reading and writing one cell of an array -/

theorem getD_set_self {l : List (Option CStr)} {e : Nat} (x : Option CStr) (h : e < l.length) :
    (l.set e x).getD e none = x := by
  simp [List.getD_eq_getElem?_getD, List.getElem?_set, h]

theorem getD_set_other {l : List (Option CStr)} {e t : Nat} (x : Option CStr) (h : e ≠ t) :
    (l.set e x).getD t none = l.getD t none := by
  simp [List.getD_eq_getElem?_getD, List.getElem?_set, h]

theorem set_none_of_getD_none {l : List (Option CStr)} {e : Nat} (h : l.getD e none = none) :
    l.set e none = l := by
  apply List.ext_getElem?
  intro t
  by_cases hte : e = t
  · subst hte
    by_cases hl : e < l.length
    · have := h
      simp only [List.getD_eq_getElem?_getD, List.getElem?_eq_getElem hl, Option.getD_some] at this
      simp [List.getElem?_set, hl, this]
    · simp [List.getElem?_set, hl]
      omega
  · simp [List.getElem?_set, hte]

/-! ## The cases of CfSetKey -/

theorem first_free_or_full (arr : List (Option CStr)) :
    ∀ n : Nat, (∀ t, t < n → arr.getD t none ≠ none) ∨
      ∃ j, j < n ∧ arr.getD j none = none ∧ ∀ t, t < j → arr.getD t none ≠ none := by
  intro n
  induction n with
  | zero => left; intro t h; omega
  | succ n ih =>
    rcases ih with h | ⟨j, h1, h2, h3⟩
    · cases hn : arr.getD n none with
      | none => right; exact ⟨n, by omega, hn, h⟩
      | some s =>
        left
        intro t ht
        rcases Nat.eq_or_lt_of_le (Nat.le_of_lt_succ ht) with e | l
        · subst e; rw [hn]; simp
        · exact h t l
    · right; exact ⟨j, by omega, h2, h3⟩

/-- The key is found: its value is replaced, if the allocation succeeds. -/
theorem CfSetKey_update {cf : xcf_entry} {key : CStr} (value : CStr) (m : Mem) {e : Nat}
    (h : (if isRegularKey key then xCfFind cf.keys cf.max key else none) = some e) :
    CfSetKey cf key value m =
      if (malloc m).1 then
        (0, { cf with values := cf.values.set e (some value) }, (malloc m).2)
      else (-1, cf, (malloc m).2) := by
  unfold CfSetKey
  rw [h]
  simp only []
  unfold xCfSet
  rcases hm : malloc m with ⟨b, m2⟩
  cases b <;> simp

/-- The key is not looked up or not found, and no slot is free. -/
theorem CfSetKey_full {cf : xcf_entry} {key : CStr} (value : CStr) (m : Mem)
    (h : (if isRegularKey key then xCfFind cf.keys cf.max key else none) = none)
    (hfull : ∀ t, t < cf.max.toNat → cf.keys.getD t none ≠ none) :
    CfSetKey cf key value m = (-1, cf, m) := by
  unfold CfSetKey
  rw [h]
  simp only []
  unfold xCfAdd
  rw [xCfAddLoop_full key m (fun t _ h2 => hfull t (by omega))]

/-- The key is not looked up or not found, and slot `j` is the first free one. -/
theorem CfSetKey_add {cf : xcf_entry} {key : CStr} (value : CStr) (m : Mem) {j : Nat}
    (h : (if isRegularKey key then xCfFind cf.keys cf.max key else none) = none)
    (hj : j < cf.max.toNat) (hfree : cf.keys.getD j none = none)
    (hfirst : ∀ t, t < j → cf.keys.getD t none ≠ none) :
    CfSetKey cf key value m =
      if (malloc m).1 then
        if (malloc (malloc m).2).1 then
          (0, { cf with keys := cf.keys.set j (some key),
                        values := cf.values.set j (some value) }, (malloc (malloc m).2).2)
        else (-1, cf, (malloc (malloc m).2).2)
      else (-1, cf, (malloc m).2) := by
  unfold CfSetKey
  rw [h]
  simp only []
  unfold xCfAdd
  rw [xCfAddLoop_free key (Nat.zero_le j) (by omega) hfree (fun t _ h2 => hfirst t h2)]
  rcases hm : malloc m with ⟨b, m2⟩
  cases b
  · simp
  · simp only [if_true]
    unfold xCfSet
    rcases hm2 : malloc m2 with ⟨b2, m3⟩
    cases b2
    · simp only [xCfDel, List.set_set, set_none_of_getD_none hfree]
      simp
    · simp

/-! ## C1: CfSetKey then CfGetKey -/

/-- C1 as stated fails. In a store of two slots that already holds the key `#a`
with value `1`, `CfSetKey` with key `#a` (non-empty, neither `#` nor `;`)
and value `2` succeeds, and `CfGetKey` for `#a` still returns `1`: a key that
begins with a comment character is never looked up, so it went to a second slot. -/
theorem C1_counterexample :
    CfSetKey ⟨[none, none], [none, none], 2⟩ "#a".toList "1".toList [] =
        (0, ⟨[some "#a".toList, none], [some "1".toList, none], 2⟩, []) ∧
      WellFormed ⟨[some "#a".toList, none], [some "1".toList, none], 2⟩ ∧
      "#a".toList ≠ [] ∧ "#a".toList ≠ "#".toList ∧ "#a".toList ≠ ";".toList ∧
      (CfSetKey ⟨[some "#a".toList, none], [some "1".toList, none], 2⟩
          "#a".toList "2".toList []).1 = 0 ∧
      CfGetKey (CfSetKey ⟨[some "#a".toList, none], [some "1".toList, none], 2⟩
          "#a".toList "2".toList []).2.1 "#a".toList = some "1".toList ∧
      CfGetKey (CfSetKey ⟨[some "#a".toList, none], [some "1".toList, none], 2⟩
          "#a".toList "2".toList []).2.1 "#a".toList ≠ some "2".toList := by
  decide

/-- After a successful `CfSetKey` with a key that is looked up, `xCfFind` finds
the key in a slot that holds the value. -/
theorem CfSetKey_find_after {cf : xcf_entry} {key : CStr} (value : CStr) (m : Mem)
    (hwf : WellFormed cf) (hkey : isRegularKey key = true)
    (hok : (CfSetKey cf key value m).1 = 0) :
    ∃ e, xCfFind (CfSetKey cf key value m).2.1.keys (CfSetKey cf key value m).2.1.max key =
        some e ∧ (CfSetKey cf key value m).2.1.values.getD e none = some value := by
  obtain ⟨hk, hv⟩ := hwf
  cases hf : xCfFind cf.keys cf.max key with
  | some e =>
    have hl : (if isRegularKey key then xCfFind cf.keys cf.max key else none) = some e := by
      rw [hkey, if_pos rfl, hf]
    rw [CfSetKey_update value m hl] at hok ⊢
    obtain ⟨-, b2, -, -⟩ := xCfFindLoop_some hf
    cases hm : (malloc m).1
    · rw [hm] at hok; simp at hok
    · simp only [if_true]
      exact ⟨e, hf, getD_set_self _ (by omega)⟩
  | none =>
    have hl : (if isRegularKey key then xCfFind cf.keys cf.max key else none) = none := by
      rw [hkey, if_pos rfl, hf]
    rcases first_free_or_full cf.keys cf.max.toNat with hfull | ⟨j, h1, h2, h3⟩
    · rw [CfSetKey_full value m hl hfull] at hok; simp at hok
    · rw [CfSetKey_add value m hl h1 h2 h3] at hok ⊢
      cases hm : (malloc m).1
      · rw [hm] at hok; simp at hok
      · rw [hm] at hok
        cases hm2 : (malloc (malloc m).2).1
        · rw [hm2] at hok; simp at hok
        · have hfind : xCfFind (cf.keys.set j (some key)) cf.max key = some j := by
            apply xCfFindLoop_first (Nat.zero_le j) (by omega)
            · exact getD_set_self _ (by omega)
            · intro t t1 t2
              rw [getD_set_other _ (by omega)]
              exact xCfFindLoop_none hf t t1 (by omega)
          simp only [if_true]
          exact ⟨j, hfind, getD_set_self _ (by omega)⟩

/-- C1, amended: for every well-formed store, every key that is non-empty and
does not begin with `#` or `;`, and every value, if `CfSetKey` succeeds then
`CfGetKey` afterwards returns exactly that value. -/
theorem C1_set_get_roundtrip (cf : xcf_entry) (key value : CStr) (m : Mem)
    (hwf : WellFormed cf) (hkey : isRegularKey key = true)
    (hok : (CfSetKey cf key value m).1 = 0) :
    CfGetKey (CfSetKey cf key value m).2.1 key = some value := by
  obtain ⟨e, hfind, hval⟩ := CfSetKey_find_after value m hwf hkey hok
  unfold CfGetKey
  rw [hfind]
  exact hval

/-- C1, amended, at a store of two slots holding `year`: setting `year` to
`1977` and reading it back. -/
theorem C1_set_get_roundtrip_witness :
    CfGetKey (CfSetKey ⟨[some "title".toList, some "year".toList],
        [some "x".toList, some "1969".toList], 2⟩ "year".toList "1977".toList []).2.1
      "year".toList = some "1977".toList :=
  C1_set_get_roundtrip ⟨[some "title".toList, some "year".toList],
    [some "x".toList, some "1969".toList], 2⟩ "year".toList "1977".toList []
    (by decide) (by decide) (by decide)

/-! ## C2: capacity -/

theorem getD_ne_of_not_mem {l : List (Option CStr)} {x : Option CStr} (hx : x ≠ none)
    (h : x ∉ l) : ∀ t, l.getD t none ≠ x := by
  intro t ht
  by_cases hl : t < l.length
  · apply h
    rw [List.getD_eq_getElem?_getD, List.getElem?_eq_getElem hl, Option.getD_some] at ht
    rw [← ht]
    exact List.getElem_mem hl
  · rw [List.getD_eq_getElem?_getD, List.getElem?_eq_none (by omega)] at ht
    exact hx ht.symm

theorem lookup_none_of_not_mem {cf : xcf_entry} {key : CStr} (h : some key ∉ cf.keys) :
    (if isRegularKey key then xCfFind cf.keys cf.max key else none) = none := by
  split
  · cases hf : xCfFind cf.keys cf.max key with
    | none => rfl
    | some e =>
      obtain ⟨-, -, h3, -⟩ := xCfFindLoop_some hf
      exact absurd h3 (getD_ne_of_not_mem (by simp) h e)
  · rfl

theorem CfCreate_some {max : Int} {m : Mem} {cf : xcf_entry} (h : (CfCreate max m).1 = some cf) :
    cf = ⟨List.replicate max.toNat none, List.replicate max.toNat none, max⟩ := by
  unfold CfCreate xCfAlloc at h
  rcases h1 : malloc m with ⟨b1, m1⟩
  rw [h1] at h
  cases b1
  · simp at h
  · simp only [] at h
    rcases h2 : malloc m1 with ⟨b2, m2⟩
    rw [h2] at h
    cases b2
    · simp at h
    · simp only [] at h
      rcases h3 : malloc m2 with ⟨b3, m3⟩
      rw [h3] at h
      cases b3
      · simp at h
      · simp only [Option.some.injEq] at h
        exact h.symm

theorem full_of_occupied_eq {cf : xcf_entry} (hwf : WellFormed cf)
    (h : occupied cf = cf.max.toNat) : ∀ t, t < cf.max.toNat → cf.keys.getD t none ≠ none := by
  intro t ht hn
  unfold occupied at h
  rw [← hwf.1, List.countP_eq_length] at h
  have hl : t < cf.keys.length := by rw [hwf.1]; exact ht
  have := h _ (List.getElem_mem hl)
  rw [List.getD_eq_getElem?_getD, List.getElem?_eq_getElem hl, Option.getD_some] at hn
  rw [hn] at this
  simp at this

theorem free_of_occupied_lt {cf : xcf_entry} (hwf : WellFormed cf)
    (h : occupied cf < cf.max.toNat) :
    ∃ j, j < cf.max.toNat ∧ cf.keys.getD j none = none ∧
      ∀ t, t < j → cf.keys.getD t none ≠ none := by
  rcases first_free_or_full cf.keys cf.max.toNat with hfull | hfree
  · exfalso
    have : occupied cf = cf.keys.length := by
      unfold occupied
      rw [List.countP_eq_length]
      intro a ha
      obtain ⟨n, hn, e⟩ := List.mem_iff_getElem.mp ha
      have := hfull n (by rw [← hwf.1]; exact hn)
      rw [List.getD_eq_getElem?_getD, List.getElem?_eq_getElem hn, Option.getD_some, e] at this
      cases a with
      | none => exact absurd rfl this
      | some _ => rfl
    rw [hwf.1] at this
    omega
  · exact hfree

/-- One successful call with a key that is not in the store takes one more slot. -/
theorem CfSetKey_new {cf : xcf_entry} {key : CStr} (value : CStr) (m : Mem)
    (hwf : WellFormed cf) (hnew : some key ∉ cf.keys)
    (hok : (CfSetKey cf key value m).1 = 0) :
    WellFormed (CfSetKey cf key value m).2.1 ∧
      (CfSetKey cf key value m).2.1.max = cf.max ∧
      occupied (CfSetKey cf key value m).2.1 = occupied cf + 1 ∧
      ∀ x, x ∈ (CfSetKey cf key value m).2.1.keys → x ∈ cf.keys ∨ x = some key := by
  have hl := lookup_none_of_not_mem hnew
  rcases first_free_or_full cf.keys cf.max.toNat with hfull | ⟨j, h1, h2, h3⟩
  · rw [CfSetKey_full value m hl hfull] at hok; simp at hok
  · rw [CfSetKey_add value m hl h1 h2 h3] at hok ⊢
    cases hm : (malloc m).1
    · rw [hm] at hok; simp at hok
    · rw [hm] at hok
      cases hm2 : (malloc (malloc m).2).1
      · rw [hm2] at hok; simp at hok
      · simp only [if_true]
        have hjl : j < cf.keys.length := by rw [hwf.1]; exact h1
        refine ⟨⟨by simpa using hwf.1, by simpa using hwf.2⟩, trivial, ?_, ?_⟩
        · unfold occupied
          simp only []
          rw [List.countP_set _ _ _ _ hjl]
          rw [List.getD_eq_getElem?_getD, List.getElem?_eq_getElem hjl, Option.getD_some] at h2
          simp [h2]
        · intro x hx
          exact List.mem_or_eq_of_mem_set hx

/-- A run of successful calls with pairwise distinct keys, none of them in
the store, takes one slot for each call. -/
theorem CfSetKeyAll_new :
    ∀ (kvs : List (CStr × CStr)) (cf : xcf_entry) (m : Mem), WellFormed cf →
      (kvs.map Prod.fst).Nodup → (∀ k ∈ kvs.map Prod.fst, some k ∉ cf.keys) →
      (∀ r ∈ (CfSetKeyAll cf kvs m).1, r = 0) →
      WellFormed (CfSetKeyAll cf kvs m).2.1 ∧ (CfSetKeyAll cf kvs m).2.1.max = cf.max ∧
        occupied (CfSetKeyAll cf kvs m).2.1 = occupied cf + kvs.length := by
  intro kvs
  induction kvs with
  | nil =>
    intro cf m hwf _ _ _
    simp only [CfSetKeyAll, List.length_nil, Nat.add_zero]
    exact ⟨hwf, trivial, trivial⟩
  | cons kv kvs ih =>
    intro cf m hwf hnd hnew hok
    simp only [CfSetKeyAll, List.mem_cons, forall_eq_or_imp] at hok
    simp only [List.map_cons, List.nodup_cons] at hnd
    have hk : some kv.1 ∉ cf.keys := hnew kv.1 (by simp)
    obtain ⟨a1, a2, a3, a4⟩ := CfSetKey_new kv.2 m hwf hk hok.1
    have hnew2 : ∀ k ∈ kvs.map Prod.fst, some k ∉ (CfSetKey cf kv.1 kv.2 m).2.1.keys := by
      intro k hkm hmem
      rcases a4 _ hmem with h | h
      · exact hnew k (by simp only [List.map_cons, List.mem_cons]; exact Or.inr hkm) h
      · simp only [Option.some.injEq] at h
        subst h
        exact hnd.1 hkm
    obtain ⟨b1, b2, b3⟩ := ih _ _ a1 hnd.2 hnew2 hok.2
    simp only [CfSetKeyAll]
    refine ⟨b1, by rw [b2, a2], ?_⟩
    rw [b3, a3, List.length_cons]
    omega

/-- C2: capacity limit. From the empty store made by `CfCreate N`, after `N`
successful `CfSetKey` calls with pairwise distinct keys, a further `CfSetKey`
with a key that is not in the store returns `-1`; and in a store of `N`
slots with fewer than `N` of them occupied, `CfSetKey` with a key that is not
in the store returns `0` when its allocations succeed. -/
theorem C2_capacity_limit (N : Nat) :
    (∀ (m0 : Mem) (cf0 : xcf_entry) (kvs : List (CStr × CStr)) (m1 : Mem)
        (key value : CStr) (m2 : Mem),
        (CfCreate N m0).1 = some cf0 → kvs.length = N → (kvs.map Prod.fst).Nodup →
        (∀ r ∈ (CfSetKeyAll cf0 kvs m1).1, r = 0) →
        some key ∉ (CfSetKeyAll cf0 kvs m1).2.1.keys →
        (CfSetKey (CfSetKeyAll cf0 kvs m1).2.1 key value m2).1 = -1) ∧
      (∀ (cf : xcf_entry) (key value : CStr) (m : Mem),
        WellFormed cf → cf.max = N → occupied cf < N → some key ∉ cf.keys →
        (malloc m).1 = true → (malloc (malloc m).2).1 = true →
        (CfSetKey cf key value m).1 = 0) := by
  constructor
  · intro m0 cf0 kvs m1 key value m2 hc hlen hnd hok hnew
    have hcf := CfCreate_some hc
    have hwf0 : WellFormed cf0 := by subst hcf; simp [WellFormed]
    have hocc0 : occupied cf0 = 0 := by
      subst hcf
      simp only [occupied, List.countP_eq_zero, List.mem_replicate]
      rintro a ⟨-, rfl⟩
      simp
    have hmax0 : cf0.max = N := by subst hcf; rfl
    have hnot : ∀ k ∈ kvs.map Prod.fst, some k ∉ cf0.keys := by
      intro k _ hmem
      subst hcf
      simp [List.mem_replicate] at hmem
    obtain ⟨b1, b2, b3⟩ := CfSetKeyAll_new kvs cf0 m1 hwf0 hnd hnot hok
    have hfull := full_of_occupied_eq b1 (by rw [b3, hocc0, b2, hmax0, hlen]; simp)
    rw [CfSetKey_full value m2 (lookup_none_of_not_mem hnew) hfull]
  · intro cf key value m hwf hmax hocc hnew hm1 hm2
    obtain ⟨j, h1, h2, h3⟩ := free_of_occupied_lt hwf (by rw [hmax]; simpa using hocc)
    rw [CfSetKey_add value m (lookup_none_of_not_mem hnew) h1 h2 h3, hm1, hm2]
    rfl

/-- C2 on six keys as in the test program `cf.c` (a store of six slots): the
seventh key, `publisher`, is refused; and a new key is accepted in a store of
two slots of which one is free. -/
theorem C2_capacity_limit_witness :
    (CfSetKey (CfSetKeyAll ⟨List.replicate 6 none, List.replicate 6 none, 6⟩
        [("title".toList, "That's cool!".toList), ("author".toList, "Jim Brown".toList),
          ("year".toList, "1969".toList), ("pages".toList, "150".toList),
          ("summary".toList, "blah".toList), ("lent".toList, "true".toList)] []).2.1
        "publisher".toList "no more entries".toList []).1 = -1 ∧
      (CfSetKey ⟨[some "title".toList, none], [some "x".toList, none], 2⟩
        "year".toList "1969".toList []).1 = 0 :=
  ⟨(C2_capacity_limit 6).1 [] ⟨List.replicate 6 none, List.replicate 6 none, 6⟩
      [("title".toList, "That's cool!".toList), ("author".toList, "Jim Brown".toList),
        ("year".toList, "1969".toList), ("pages".toList, "150".toList),
        ("summary".toList, "blah".toList), ("lent".toList, "true".toList)] []
      "publisher".toList "no more entries".toList [] (by decide) (by decide) (by decide)
      (by decide) (by decide),
    (C2_capacity_limit 2).2 ⟨[some "title".toList, none], [some "x".toList, none], 2⟩
      "year".toList "1969".toList [] (by decide) (by decide) (by decide) (by decide)
      (by decide) (by decide)⟩

/-! ## C3: update in place -/

theorem isRegularKey_of_validKeyName {key : CStr} (h : validKeyName key = true) :
    isRegularKey key = true := by
  cases key with
  | nil => simp [validKeyName] at h
  | cons c cs =>
    simp only [validKeyName, List.all_cons, Bool.and_eq_true] at h
    have hc := h.2.1
    simp only [isRegularKey, Bool.and_eq_true, bne_iff_ne, ne_eq]
    constructor
    · rintro rfl; revert hc; decide
    · rintro rfl; revert hc; decide

theorem xCfFind_of_mem {arr : List (Option CStr)} {size : Int} {key : CStr}
    (hlen : arr.length = size.toNat) (h : some key ∈ arr) :
    ∃ e, xCfFind arr size key = some e := by
  cases hf : xCfFind arr size key with
  | some e => exact ⟨e, rfl⟩
  | none =>
    exfalso
    obtain ⟨n, hn, he⟩ := List.mem_iff_getElem.mp h
    apply xCfFindLoop_none hf n (Nat.zero_le n) (by omega)
    rw [List.getD_eq_getElem?_getD, List.getElem?_eq_getElem hn, Option.getD_some, he]

/-- C3: update in place. For every well-formed store (full or not) and every
valid key name already present in it, `CfSetKey` succeeds when its allocation
does; only the value of the slot that holds the key changes (it becomes the
new value), the keys of all slots stay as they were, and so does the number of
occupied slots. -/
theorem C3_update_in_place (cf : xcf_entry) (key value : CStr) (m : Mem)
    (hwf : WellFormed cf) (hvalid : validKeyName key = true) (hin : some key ∈ cf.keys)
    (hmem : (malloc m).1 = true) :
    ∃ e, e < cf.max.toNat ∧ cf.keys.getD e none = some key ∧
      (CfSetKey cf key value m).1 = 0 ∧
      (CfSetKey cf key value m).2.1.keys = cf.keys ∧
      (CfSetKey cf key value m).2.1.max = cf.max ∧
      occupied (CfSetKey cf key value m).2.1 = occupied cf ∧
      (CfSetKey cf key value m).2.1.values.getD e none = some value ∧
      (CfSetKey cf key value m).2.1.values.length = cf.values.length ∧
      ∀ t, t ≠ e →
        (CfSetKey cf key value m).2.1.values.getD t none = cf.values.getD t none := by
  obtain ⟨e, hf⟩ := xCfFind_of_mem hwf.1 hin
  have hl : (if isRegularKey key then xCfFind cf.keys cf.max key else none) = some e := by
    rw [isRegularKey_of_validKeyName hvalid, if_pos rfl, hf]
  obtain ⟨-, h2, h3, -⟩ := xCfFindLoop_some hf
  refine ⟨e, by omega, h3, ?_⟩
  rw [CfSetKey_update value m hl, hmem, if_pos rfl]
  refine ⟨rfl, rfl, rfl, rfl, ?_, ?_, ?_⟩
  · exact getD_set_self _ (by rw [hwf.2]; omega)
  · simp
  · intro t ht
    exact getD_set_other _ (fun h => ht h.symm)

/-- C3 at a full store of two slots: `year` is set from `1969` to `1977`. -/
theorem C3_update_in_place_witness :
    ∃ e, e < (2 : Int).toNat ∧
      (⟨[some "title".toList, some "year".toList],
        [some "x".toList, some "1969".toList], 2⟩ : xcf_entry).keys.getD e none =
        some "year".toList ∧
      (CfSetKey ⟨[some "title".toList, some "year".toList],
        [some "x".toList, some "1969".toList], 2⟩ "year".toList "1977".toList []).1 = 0 ∧
      (CfSetKey ⟨[some "title".toList, some "year".toList],
        [some "x".toList, some "1969".toList], 2⟩ "year".toList "1977".toList []).2.1.keys =
        [some "title".toList, some "year".toList] ∧
      (CfSetKey ⟨[some "title".toList, some "year".toList],
        [some "x".toList, some "1969".toList], 2⟩ "year".toList "1977".toList []).2.1.max = 2 ∧
      occupied (CfSetKey ⟨[some "title".toList, some "year".toList],
        [some "x".toList, some "1969".toList], 2⟩ "year".toList "1977".toList []).2.1 =
        occupied ⟨[some "title".toList, some "year".toList],
          [some "x".toList, some "1969".toList], 2⟩ ∧
      (CfSetKey ⟨[some "title".toList, some "year".toList],
        [some "x".toList, some "1969".toList], 2⟩
          "year".toList "1977".toList []).2.1.values.getD e none = some "1977".toList ∧
      (CfSetKey ⟨[some "title".toList, some "year".toList],
        [some "x".toList, some "1969".toList], 2⟩
          "year".toList "1977".toList []).2.1.values.length = 2 ∧
      ∀ t, t ≠ e →
        (CfSetKey ⟨[some "title".toList, some "year".toList],
          [some "x".toList, some "1969".toList], 2⟩
            "year".toList "1977".toList []).2.1.values.getD t none =
          (⟨[some "title".toList, some "year".toList],
            [some "x".toList, some "1969".toList], 2⟩ : xcf_entry).values.getD t none :=
  C3_update_in_place ⟨[some "title".toList, some "year".toList],
    [some "x".toList, some "1969".toList], 2⟩ "year".toList "1977".toList []
    (by decide) (by decide) (by decide) (by decide)

/-! ## C4: a failed CfSetKey changes nothing -/

/-- C4: atomicity of `CfSetKey`. Whenever `CfSetKey` fails (store full, or the
allocation for the key or for the value fails, also right after the key was
added), the store afterwards is the store before the call, and if no slot held
a key without a value before, none does afterwards. -/
theorem C4_failure_atomic (cf : xcf_entry) (key value : CStr) (m : Mem)
    (_hwf : WellFormed cf) (hfail : (CfSetKey cf key value m).1 = -1) :
    (CfSetKey cf key value m).2.1 = cf ∧
      (NoKeyWithoutValue cf → NoKeyWithoutValue (CfSetKey cf key value m).2.1) := by
  have hsame : (CfSetKey cf key value m).2.1 = cf := by
    cases hl : (if isRegularKey key then xCfFind cf.keys cf.max key else none) with
    | some e =>
      rw [CfSetKey_update value m hl] at hfail ⊢
      cases hm : (malloc m).1
      · simp
      · rw [hm] at hfail; simp at hfail
    | none =>
      rcases first_free_or_full cf.keys cf.max.toNat with hfull | ⟨j, h1, h2, h3⟩
      · rw [CfSetKey_full value m hl hfull]
      · rw [CfSetKey_add value m hl h1 h2 h3] at hfail ⊢
        cases hm : (malloc m).1
        · simp
        · rw [hm] at hfail
          cases hm2 : (malloc (malloc m).2).1
          · simp
          · rw [hm2] at hfail; simp at hfail
  exact ⟨hsame, fun h => by rw [hsame]; exact h⟩

/-- C4 where the allocation for the value fails right after the key was added. -/
theorem C4_failure_atomic_witness :
    (CfSetKey ⟨[some "title".toList, none], [some "x".toList, none], 2⟩
        "year".toList "1969".toList [true, false]).2.1 =
        ⟨[some "title".toList, none], [some "x".toList, none], 2⟩ ∧
      (NoKeyWithoutValue ⟨[some "title".toList, none], [some "x".toList, none], 2⟩ →
        NoKeyWithoutValue (CfSetKey ⟨[some "title".toList, none], [some "x".toList, none], 2⟩
          "year".toList "1969".toList [true, false]).2.1) :=
  C4_failure_atomic ⟨[some "title".toList, none], [some "x".toList, none], 2⟩
    "year".toList "1969".toList [true, false] (by decide) (by decide)

/-! ## C5, C6: CfSetStr -/

/-- What `CfSetStr` hands to `CfSetKey` for a string `value`: the closing quote
takes the place of the last character of `value`. -/
theorem CfSetStrBuf_cstr (value : CStr) (h : ∀ c ∈ value, c ≠ '\x00') :
    cstr (CfSetStrBuf value) =
      if value = [] then [dquote] else dquote :: (value.dropLast ++ [dquote]) := by
  have hbuf : CfSetStrBuf value = (dquote :: (value ++ ['\x00'])).set value.length dquote := by
    simp only [CfSetStrBuf, strcpy, List.replicate_succ, List.set_cons_zero]
    congr 1
    simp
    omega
  rw [hbuf]
  rcases List.eq_nil_or_concat value with e | ⟨L, b, e⟩
  · subst e
    simp [cstr, List.takeWhile_cons, show (dquote != '\x00') = true by decide]
  · rw [List.concat_eq_append] at e
    subst e
    have hL : ∀ c ∈ L, (c != '\x00') = true := by
      intro c hc
      simpa using h c (List.mem_append_left _ hc)
    have hset : (dquote :: (L ++ [b] ++ ['\x00'])).set (L ++ [b]).length dquote =
        dquote :: (L ++ [dquote, '\x00']) := by
      simp only [List.length_append, List.length_cons, List.length_nil, List.set_cons_succ,
        List.append_assoc, List.singleton_append]
      rw [List.set_append_right _ _ (le_refl _)]
      simp
    rw [hset]
    simp only [cstr, if_neg (List.append_ne_nil_of_right_ne_nil L (List.cons_ne_nil b [])),
      List.dropLast_concat]
    rw [List.takeWhile_cons_of_pos (by decide), List.takeWhile_append_of_pos hL]
    simp [List.takeWhile_cons, show (dquote != '\x00') = true by decide]

/-- C5 fails on the code: `CfSetStr` writes the closing quote over the last
character of the string (`tmp[size - 2]` with `size = strlen(value) + 2`). After
the call `set_str("summary", "This book, blah, blah, blah...")` of the test
program, `CfGetStr` returns the string without its last character; and after
`CfSetStr` of the empty string the stored value is a lone quote, for which
`CfGetStr` returns the default. -/
theorem C5_setstr_getstr_failing :
    (CfSetStr ⟨[none], [none], 1⟩ "summary".toList
        "This book, blah, blah, blah...".toList []).1 = 0 ∧
      (CfGetStr (CfSetStr ⟨[none], [none], 1⟩ "summary".toList
        "This book, blah, blah, blah...".toList []).2.1 "summary".toList "n/a".toList).1 =
        "This book, blah, blah, blah..".toList ∧
      (CfSetStr ⟨[none], [none], 1⟩ "s".toList [] []).1 = 0 ∧
      (CfGetStr (CfSetStr ⟨[none], [none], 1⟩ "s".toList [] []).2.1
        "s".toList "n/a".toList).1 = "n/a".toList := by
  decide

/-- C6 fails on the code, by the same slip as C5: after `CfSetStr` of `abc` the
raw value is the quote, `ab`, and the quote (4 characters, not 5), and after
`CfSetStr` of the empty string it is a single quote. -/
theorem C6_setstr_raw_failing :
    (CfSetStr ⟨[none], [none], 1⟩ "s".toList "abc".toList []).1 = 0 ∧
      CfGetKey (CfSetStr ⟨[none], [none], 1⟩ "s".toList "abc".toList []).2.1 "s".toList =
        some (dquote :: "ab".toList ++ [dquote]) ∧
      CfGetKey (CfSetStr ⟨[none], [none], 1⟩ "s".toList "abc".toList []).2.1 "s".toList ≠
        some (dquote :: "abc".toList ++ [dquote]) ∧
      CfGetKey (CfSetStr ⟨[none], [none], 1⟩ "s".toList [] []).2.1 "s".toList =
        some [dquote] := by
  decide

/-! ## C7: CfGetStr -/

theorem tail_dropLast (l : List Char) : l.dropLast.tail = l.tail.dropLast := by
  cases l with
  | nil => rfl
  | cons a t =>
    cases t with
    | nil => rfl
    | cons b u => simp [List.dropLast]

/-- C7: the result of `CfGetStr`. If the key is absent the result is the
default; if the raw value starts with a double quote, has length at least 2
and ends with a double quote, it is the raw value without its first and last
character; if the raw value starts with a double quote but has length 1 or
does not end with one, it is the default; otherwise it is the raw value. -/
theorem C7_getstr_result (cf : xcf_entry) (key d : CStr) :
    (CfGetKey cf key = none → (CfGetStr cf key d).1 = d) ∧
      (∀ v, CfGetKey cf key = some v → v.head? = some dquote → 2 ≤ v.length →
        v.getLast? = some dquote → (CfGetStr cf key d).1 = v.tail.dropLast) ∧
      (∀ v, CfGetKey cf key = some v → v.head? = some dquote →
        (v.length = 1 ∨ v.getLast? ≠ some dquote) → (CfGetStr cf key d).1 = d) ∧
      (∀ v, CfGetKey cf key = some v → v.head? ≠ some dquote →
        (CfGetStr cf key d).1 = v) := by
  refine ⟨?_, ?_, ?_, ?_⟩
  · intro h
    unfold CfGetStr
    rw [h]
  · intro v h h1 h2 h3
    unfold CfGetStr
    rw [h]
    simp only [h1, if_true, h2, h3, and_self]
    exact tail_dropLast v
  · intro v h h1 h2
    unfold CfGetStr
    rw [h]
    simp only [h1, if_true]
    rw [if_neg]
    rintro ⟨a, b⟩
    rcases h2 with h2 | h2
    · omega
    · exact h2 b
  · intro v h h1
    unfold CfGetStr
    rw [h]
    simp only [h1, if_false]

/-- C7 on a store with a quoted value, an unterminated one and a plain one. -/
theorem C7_getstr_result_witness :
    (CfGetStr ⟨[some "a".toList, some "b".toList, some "c".toList],
        [some (dquote :: "hello".toList ++ [dquote]), some (dquote :: "unterminated".toList),
          some "Jim Brown".toList], 3⟩ "publisher".toList "n/a".toList).1 = "n/a".toList ∧
      (CfGetStr ⟨[some "a".toList, some "b".toList, some "c".toList],
        [some (dquote :: "hello".toList ++ [dquote]), some (dquote :: "unterminated".toList),
          some "Jim Brown".toList], 3⟩ "a".toList "n/a".toList).1 =
        (dquote :: "hello".toList ++ [dquote]).tail.dropLast ∧
      (CfGetStr ⟨[some "a".toList, some "b".toList, some "c".toList],
        [some (dquote :: "hello".toList ++ [dquote]), some (dquote :: "unterminated".toList),
          some "Jim Brown".toList], 3⟩ "b".toList "n/a".toList).1 = "n/a".toList ∧
      (CfGetStr ⟨[some "a".toList, some "b".toList, some "c".toList],
        [some (dquote :: "hello".toList ++ [dquote]), some (dquote :: "unterminated".toList),
          some "Jim Brown".toList], 3⟩ "c".toList "n/a".toList).1 = "Jim Brown".toList :=
  ⟨(C7_getstr_result _ "publisher".toList "n/a".toList).1 (by decide),
    (C7_getstr_result _ "a".toList "n/a".toList).2.1 (dquote :: "hello".toList ++ [dquote])
      (by decide) (by decide) (by decide) (by decide),
    (C7_getstr_result _ "b".toList "n/a".toList).2.2.1 (dquote :: "unterminated".toList)
      (by decide) (by decide) (by decide),
    (C7_getstr_result _ "c".toList "n/a".toList).2.2.2 "Jim Brown".toList
      (by decide) (by decide)⟩

/-! ## C8: CfGetBool -/

/-- C8: the result of `CfGetBool`. It is 1 when the raw value is exactly
`true`, 0 when it is exactly `false`, and the default in every other case
(key absent or any other raw value); with default 0 it is 1 if and only if the
raw value is exactly `true`; and after a successful `CfSetBool` of `b` on a
valid key name it is 1 for a true `b` (non-zero) and 0 for a false one. -/
theorem C8_getbool_result (cf : xcf_entry) (key : CStr) (d : Int) :
    (CfGetKey cf key = some "true".toList → CfGetBool cf key d = 1) ∧
      (CfGetKey cf key = some "false".toList → CfGetBool cf key d = 0) ∧
      (CfGetKey cf key ≠ some "true".toList → CfGetKey cf key ≠ some "false".toList →
        CfGetBool cf key d = d) ∧
      (CfGetBool cf key 0 = 1 ↔ CfGetKey cf key = some "true".toList) ∧
      (∀ (b : Int) (m : Mem), WellFormed cf → validKeyName key = true →
        (CfSetBool cf key b m).1 = 0 →
        CfGetBool (CfSetBool cf key b m).2.1 key d = if b ≠ 0 then 1 else 0) := by
  have hT : CfGetKey cf key = some "true".toList → ∀ d, CfGetBool cf key d = 1 := by
    intro h d
    unfold CfGetBool
    rw [h]
    rfl
  have hO : CfGetKey cf key ≠ some "true".toList → CfGetKey cf key ≠ some "false".toList →
      ∀ d, CfGetBool cf key d = d := by
    intro h1 h2 d
    unfold CfGetBool
    cases hv : CfGetKey cf key with
    | none => rfl
    | some v =>
      rw [hv] at h1 h2
      simp only [ne_eq, Option.some.injEq] at h1 h2
      simp only [h1, h2, if_false]
  have hF : CfGetKey cf key = some "false".toList → ∀ d, CfGetBool cf key d = 0 := by
    intro h d
    unfold CfGetBool
    rw [h]
    rfl
  refine ⟨fun h => hT h d, fun h => hF h d, fun h1 h2 => hO h1 h2 d, ?_, ?_⟩
  · constructor
    · intro h
      by_contra hne
      by_cases hf : CfGetKey cf key = some "false".toList
      · rw [hF hf 0] at h; exact absurd h (by decide)
      · rw [hO hne hf 0] at h; exact absurd h (by decide)
    · intro h; exact hT h 0
  · intro b m hwf hvalid hok
    unfold CfSetBool at hok ⊢
    obtain ⟨e, hfind, hval⟩ :=
      CfSetKey_find_after _ m hwf (isRegularKey_of_validKeyName hvalid) hok
    unfold CfGetBool CfGetKey
    rw [hfind]
    simp only []
    rw [hval]
    by_cases hb : b ≠ 0
    · rw [if_pos hb, if_pos hb]
      rfl
    · rw [if_neg hb, if_neg hb]
      rfl

/-- C8 on the store of the test program's `lent` key. -/
theorem C8_getbool_result_witness :
    CfGetBool ⟨[some "lent".toList, none], [some "true".toList, none], 2⟩ "lent".toList 0 = 1 ∧
      CfGetBool ⟨[some "lent".toList, none], [some "false".toList, none], 2⟩
        "lent".toList 1 = 0 ∧
      CfGetBool ⟨[some "lent".toList, none], [some "yes".toList, none], 2⟩
        "lent".toList 7 = 7 ∧
      CfGetBool (CfSetBool ⟨[some "lent".toList, none], [some "yes".toList, none], 2⟩
        "lent".toList 1 []).2.1 "lent".toList 0 = (if (1 : Int) ≠ 0 then 1 else 0) :=
  ⟨(C8_getbool_result _ "lent".toList 0).1 (by decide),
    (C8_getbool_result _ "lent".toList 1).2.1 (by decide),
    (C8_getbool_result _ "lent".toList 7).2.2.1 (by decide) (by decide),
    (C8_getbool_result ⟨[some "lent".toList, none], [some "yes".toList, none], 2⟩
      "lent".toList 0).2.2.2.2 1 [] (by decide) (by decide) (by decide)⟩

/-! ## C9: CfGetUint -/

theorem decimalValue_nil : decimalValue [] = 0 := by
  simp [decimalValue]

theorem decimalValue_cons (c : Char) (cs : CStr) :
    decimalValue (c :: cs) = (c.toNat - '0'.toNat) * 10 ^ cs.length + decimalValue cs := by
  simp only [decimalValue, List.reverse_cons, List.map_append, List.map_cons, List.map_nil,
    Nat.ofDigits_append, List.length_map, List.length_reverse, Nat.ofDigits_singleton]
  ring

theorem CfGetUintLoop_digits :
    ∀ (v : CStr) (acc : Nat), (∀ c ∈ v, c.isDigit = true) →
      (CfGetUintLoop v acc).2 = [] ∧
        (CfGetUintLoop v acc).1 % UINT_MOD = (acc * 10 ^ v.length + decimalValue v) % UINT_MOD ∧
        (acc < UINT_MOD → (CfGetUintLoop v acc).1 < UINT_MOD) := by
  intro v
  induction v with
  | nil =>
    intro acc _
    simp [CfGetUintLoop, decimalValue_nil]
  | cons c cs ih =>
    intro acc h
    have hc : c.isDigit = true := h c (List.mem_cons_self _ _)
    have hcs : ∀ x ∈ cs, x.isDigit = true := fun x hx => h x (List.mem_cons_of_mem _ hx)
    obtain ⟨a1, a2, a3⟩ :=
      ih (((acc * 10) % UINT_MOD + (c.toNat - '0'.toNat)) % UINT_MOD) hcs
    have hpos : 0 < UINT_MOD := by decide
    simp only [CfGetUintLoop, hc, if_true]
    refine ⟨a1, ?_, fun _ => a3 (Nat.mod_lt _ hpos)⟩
    rw [a2, decimalValue_cons, List.length_cons]
    have e1 : (((acc * 10) % UINT_MOD + (c.toNat - '0'.toNat)) % UINT_MOD) ≡
        acc * 10 + (c.toNat - '0'.toNat) [MOD UINT_MOD] :=
      (Nat.mod_modEq _ _).trans (Nat.ModEq.add_right _ (Nat.mod_modEq _ _))
    have e2 := (e1.mul_right (10 ^ cs.length)).add_right (decimalValue cs)
    have e3 : (acc * 10 + (c.toNat - '0'.toNat)) * 10 ^ cs.length + decimalValue cs =
        acc * 10 ^ (cs.length + 1) + ((c.toNat - '0'.toNat) * 10 ^ cs.length + decimalValue cs) := by
      ring
    rw [← e3]
    exact e2

theorem CfGetUintLoop_nondigit :
    ∀ (v : CStr) (acc : Nat), (∃ c ∈ v, c.isDigit = false) → (CfGetUintLoop v acc).2 ≠ [] := by
  intro v
  induction v with
  | nil => intro acc h; simp at h
  | cons c cs ih =>
    intro acc h
    cases hc : c.isDigit with
    | false => simp [CfGetUintLoop, hc]
    | true =>
      simp only [CfGetUintLoop, hc, if_true]
      apply ih
      obtain ⟨x, hx, hd⟩ := h
      rcases List.mem_cons.mp hx with e | m
      · subst e; rw [hc] at hd; exact absurd hd (by decide)
      · exact ⟨x, m, hd⟩

/-- C9: `CfGetUint` is strict. If the key is present and every character of its
raw value is a decimal digit, the result is the number the digit string
denotes, modulo 2^32; if the key is absent, or the raw value has a character
that is not a digit anywhere, the result is the default. -/
theorem C9_getuint_strict (cf : xcf_entry) (key : CStr) (d : Nat) :
    (∀ v, CfGetKey cf key = some v → (∀ c ∈ v, c.isDigit = true) →
        CfGetUint cf key d = decimalValue v % 2 ^ 32) ∧
      (CfGetKey cf key = none → CfGetUint cf key d = d) ∧
      (∀ v, CfGetKey cf key = some v → (∃ c ∈ v, c.isDigit = false) →
        CfGetUint cf key d = d) := by
  refine ⟨?_, ?_, ?_⟩
  · intro v hv hdig
    obtain ⟨a1, a2, a3⟩ := CfGetUintLoop_digits v 0 hdig
    unfold CfGetUint
    rw [hv]
    simp only []
    rcases hl : CfGetUintLoop v 0 with ⟨r, rest⟩
    rw [hl] at a1 a2 a3
    simp only [] at a1 a2 a3
    subst a1
    simp only []
    have hlt : r < UINT_MOD := a3 (by decide)
    rw [Nat.mod_eq_of_lt hlt] at a2
    rw [a2]
    simp [UINT_MOD]
  · intro h
    unfold CfGetUint
    rw [h]
  · intro v hv hnd
    have := CfGetUintLoop_nondigit v 0 hnd
    unfold CfGetUint
    rw [hv]
    simp only []
    rcases hl : CfGetUintLoop v 0 with ⟨r, rest⟩
    rw [hl] at this
    cases rest with
    | nil => exact absurd rfl this
    | cons _ _ => rfl

/-- C9 on the values `1969`, `42x` and `-5`, and on an absent key. -/
theorem C9_getuint_strict_witness :
    CfGetUint ⟨[some "year".toList, some "n".toList, some "k".toList],
        [some "1969".toList, some "42x".toList, some "-5".toList], 3⟩ "year".toList 9999 =
        decimalValue "1969".toList % 2 ^ 32 ∧
      CfGetUint ⟨[some "year".toList, some "n".toList, some "k".toList],
        [some "1969".toList, some "42x".toList, some "-5".toList], 3⟩ "pages".toList 9999 =
        9999 ∧
      CfGetUint ⟨[some "year".toList, some "n".toList, some "k".toList],
        [some "1969".toList, some "42x".toList, some "-5".toList], 3⟩ "n".toList 999 = 999 ∧
      CfGetUint ⟨[some "year".toList, some "n".toList, some "k".toList],
        [some "1969".toList, some "42x".toList, some "-5".toList], 3⟩ "k".toList 999 = 999 :=
  ⟨(C9_getuint_strict _ "year".toList 9999).1 "1969".toList (by decide) (by decide),
    (C9_getuint_strict _ "pages".toList 9999).2.1 (by decide),
    (C9_getuint_strict _ "n".toList 999).2.2 "42x".toList (by decide) (by decide),
    (C9_getuint_strict _ "k".toList 999).2.2 "-5".toList (by decide) (by decide)⟩

/-! ## Stores whose occupied slots come first -/

theorem ext_getD {l1 l2 : List (Option CStr)} (hlen : l1.length = l2.length)
    (h : ∀ t, t < l1.length → l1.getD t none = l2.getD t none) : l1 = l2 := by
  apply List.ext_getElem?
  intro t
  by_cases ht : t < l1.length
  · have := h t ht
    rw [List.getD_eq_getElem?_getD, List.getD_eq_getElem?_getD,
      List.getElem?_eq_getElem ht, List.getElem?_eq_getElem (by omega)] at this
    rw [List.getElem?_eq_getElem ht, List.getElem?_eq_getElem (by omega)]
    simpa using this
  · rw [List.getElem?_eq_none (by omega), List.getElem?_eq_none (by omega)]

theorem slots_length {n : Nat} {xs : List CStr} (h : xs.length ≤ n) :
    (slots n xs).length = n := by
  simp [slots]; omega

theorem slots_getD (n : Nat) (xs : List CStr) (t : Nat) :
    (slots n xs).getD t none = xs[t]? := by
  rw [List.getD_eq_getElem?_getD, slots]
  by_cases ht : t < xs.length
  · rw [List.getElem?_append_left (by simpa using ht)]
    simp [List.getElem?_eq_getElem ht]
  · rw [List.getElem?_append_right (by simpa using ht), List.getElem?_eq_none (Nat.le_of_not_lt ht),
      List.getElem?_replicate]
    split <;> rfl

theorem slots_set {n : Nat} {xs : List CStr} {e : Nat} (v : CStr) (he : e < xs.length)
    (hn : xs.length ≤ n) : (slots n xs).set e (some v) = slots n (xs.set e v) := by
  apply ext_getD
  · rw [List.length_set, slots_length hn, slots_length (by simpa using hn)]
  · intro t _
    rw [slots_getD]
    by_cases hte : e = t
    · subst hte
      rw [getD_set_self _ (by rw [slots_length hn]; omega)]
      simp [he]
    · rw [getD_set_other _ hte, slots_getD]
      simp [List.getElem?_set, hte]

theorem slots_push {n : Nat} {xs : List CStr} (v : CStr) (hn : xs.length < n) :
    (slots n xs).set xs.length (some v) = slots n (xs ++ [v]) := by
  apply ext_getD
  · rw [List.length_set, slots_length (by omega), slots_length (by simp; omega)]
  · intro t _
    rw [slots_getD]
    by_cases hte : xs.length = t
    · subst hte
      rw [getD_set_self _ (by rw [slots_length (by omega)]; omega)]
      simp
    · rw [getD_set_other _ hte, slots_getD]
      by_cases hlt : t < xs.length
      · rw [List.getElem?_append_left hlt]
      · rw [List.getElem?_eq_none (by omega), List.getElem?_eq_none (by simp; omega)]

theorem storeOf_wellFormed {max : Int} {es : List (CStr × CStr)} (h : es.length ≤ max.toNat) :
    WellFormed (storeOf max es) :=
  ⟨slots_length (by simpa using h), slots_length (by simpa using h)⟩

theorem storeOf_keys_getD (max : Int) (es : List (CStr × CStr)) (t : Nat) :
    (storeOf max es).keys.getD t none = (es.map Prod.fst)[t]? :=
  slots_getD _ _ _

theorem storeOf_first_free {max : Int} {es : List (CStr × CStr)} :
    (storeOf max es).keys.getD es.length none = none ∧
      ∀ t, t < es.length → (storeOf max es).keys.getD t none ≠ none := by
  constructor
  · rw [storeOf_keys_getD, List.getElem?_eq_none (by simp)]
  · intro t ht
    rw [storeOf_keys_getD, List.getElem?_eq_getElem (by simpa using ht)]
    simp

theorem storeOf_full {max : Int} {es : List (CStr × CStr)} (h : max.toNat ≤ es.length) :
    ∀ t, t < (storeOf max es).max.toNat → (storeOf max es).keys.getD t none ≠ none :=
  fun t ht => storeOf_first_free.2 t (lt_of_lt_of_le ht h)

theorem malloc_of_all_true {m : Mem} (h : ∀ b ∈ m, b = true) :
    (malloc m).1 = true ∧ ∀ b ∈ (malloc m).2, b = true := by
  cases m with
  | nil => exact ⟨rfl, h⟩
  | cons b t =>
    exact ⟨h b (List.mem_cons_self _ _), fun x hx => h x (List.mem_cons_of_mem _ hx)⟩

theorem set_self_of_getElem? {xs : List CStr} {e : Nat} {k : CStr} (h : xs[e]? = some k) :
    xs.set e k = xs := by
  apply List.ext_getElem?
  intro t
  by_cases hte : e = t
  · subst hte
    obtain ⟨hl, -⟩ := List.getElem?_eq_some.mp h
    rw [h]
    simp [List.getElem?_set, hl]
  · simp [List.getElem?_set, hte]

/-- In a store whose occupied slots come first, a successful lookup finds an entry. -/
theorem storeOf_lookup_some {max : Int} {es : List (CStr × CStr)} {key : CStr} {e : Nat}
    (h : (if isRegularKey key then xCfFind (storeOf max es).keys (storeOf max es).max key
      else none) = some e) :
    isRegularKey key = true ∧ (es.map Prod.fst)[e]? = some key := by
  cases hk : isRegularKey key with
  | false => rw [hk] at h; simp at h
  | true =>
    rw [hk, if_pos rfl] at h
    obtain ⟨-, -, h3, -⟩ := xCfFindLoop_some h
    rw [storeOf_keys_getD] at h3
    exact ⟨rfl, h3⟩

/-- In a store whose occupied slots come first, a failed lookup of a key that
is looked up means that no entry has the key. -/
theorem storeOf_lookup_none {max : Int} {es : List (CStr × CStr)} {key : CStr}
    (hlen : es.length ≤ max.toNat)
    (h : (if isRegularKey key then xCfFind (storeOf max es).keys (storeOf max es).max key
      else none) = none) :
    isRegularKey key = true → key ∉ es.map Prod.fst := by
  intro hk hmem
  rw [hk, if_pos rfl] at h
  obtain ⟨n, hn, he⟩ := List.mem_iff_getElem.mp hmem
  have hn2 : n < es.length := by simpa using hn
  apply xCfFindLoop_none h n (Nat.zero_le n) (by show n < 0 + max.toNat; omega)
  rw [storeOf_keys_getD, List.getElem?_eq_getElem hn, he]

theorem storeOf_lookup_none_of {max : Int} {es : List (CStr × CStr)} {key : CStr}
    (h : isRegularKey key = true → key ∉ es.map Prod.fst) :
    (if isRegularKey key then xCfFind (storeOf max es).keys (storeOf max es).max key
      else none) = none := by
  cases hk : isRegularKey key with
  | false => simp
  | true =>
    rw [if_pos rfl]
    cases hf : xCfFind (storeOf max es).keys (storeOf max es).max key with
    | none => rfl
    | some e =>
      obtain ⟨-, -, h3, -⟩ := xCfFindLoop_some hf
      rw [storeOf_keys_getD] at h3
      exact absurd (List.getElem?_mem h3) (h hk)

theorem storeOf_set_value {max : Int} {es : List (CStr × CStr)} {key : CStr} {e : Nat}
    (value : CStr) (hlen : es.length ≤ max.toNat) (he : (es.map Prod.fst)[e]? = some key) :
    ({ storeOf max es with values := (storeOf max es).values.set e (some value) } : xcf_entry) =
      storeOf max (es.set e (key, value)) := by
  obtain ⟨hl, -⟩ := List.getElem?_eq_some.mp he
  have hl2 : e < es.length := by simpa using hl
  simp only [storeOf]
  rw [slots_set value (by simpa using hl2) (by simpa using hlen)]
  simp only [List.map_set, set_self_of_getElem? he]

theorem storeOf_push {max : Int} {es : List (CStr × CStr)} (key value : CStr)
    (hlen : es.length < max.toNat) :
    ({ storeOf max es with
        keys := (storeOf max es).keys.set es.length (some key),
        values := (storeOf max es).values.set es.length (some value) } : xcf_entry) =
      storeOf max (es ++ [(key, value)]) := by
  simp only [storeOf]
  have h1 := @slots_push max.toNat (es.map Prod.fst) key (by simpa using hlen)
  have h2 := @slots_push max.toNat (es.map Prod.snd) value (by simpa using hlen)
  simp only [List.length_map] at h1 h2
  rw [h1, h2]
  simp

/-- `CfSetKey` with a key that no entry has (or that is not looked up), in a
store with a free slot and with memory: the entry is added after the others. -/
theorem CfSetKey_storeOf_append {max : Int} {es : List (CStr × CStr)} {key : CStr}
    (value : CStr) {m : Mem} (hlen : es.length < max.toNat)
    (hnew : isRegularKey key = true → key ∉ es.map Prod.fst) (hm : ∀ b ∈ m, b = true) :
    CfSetKey (storeOf max es) key value m =
      (0, storeOf max (es ++ [(key, value)]), (malloc (malloc m).2).2) ∧
      ∀ b ∈ (malloc (malloc m).2).2, b = true := by
  obtain ⟨a1, a2⟩ := malloc_of_all_true hm
  obtain ⟨b1, b2⟩ := malloc_of_all_true a2
  refine ⟨?_, b2⟩
  rw [CfSetKey_add value m (storeOf_lookup_none_of hnew) (show es.length < (storeOf max es).max.toNat from hlen)
    storeOf_first_free.1 storeOf_first_free.2, a1, b1, if_pos rfl, if_pos rfl,
    storeOf_push key value hlen]

/-- Whatever `CfSetKey` does to a store whose occupied slots come first and
whose looked-up keys are distinct, the store afterwards is of the same kind. -/
theorem CfSetKey_storeOf (max : Int) (es : List (CStr × CStr)) (key value : CStr) (m : Mem)
    (hlen : es.length ≤ max.toNat) (hgood : regularKeysDistinct es) :
    ∃ es2, (CfSetKey (storeOf max es) key value m).2.1 = storeOf max es2 ∧
      es2.length ≤ max.toNat ∧ regularKeysDistinct es2 := by
  cases hl : (if isRegularKey key then xCfFind (storeOf max es).keys (storeOf max es).max key
      else none) with
  | some e =>
    obtain ⟨-, he⟩ := storeOf_lookup_some hl
    rw [CfSetKey_update value m hl]
    cases (malloc m).1
    · exact ⟨es, rfl, hlen, hgood⟩
    · refine ⟨es.set e (key, value), ?_, by simpa using hlen, ?_⟩
      · simp only [if_true]
        exact storeOf_set_value value hlen he
      · unfold regularKeysDistinct
        rw [List.map_set, set_self_of_getElem? he]
        exact hgood
  | none =>
    by_cases hfull : max.toNat ≤ es.length
    · rw [CfSetKey_full value m hl (storeOf_full hfull)]
      exact ⟨es, rfl, hlen, hgood⟩
    · have hlt : es.length < max.toNat := by omega
      rw [CfSetKey_add value m hl (show es.length < (storeOf max es).max.toNat from hlt)
        storeOf_first_free.1 storeOf_first_free.2]
      cases (malloc m).1
      · exact ⟨es, rfl, hlen, hgood⟩
      · cases (malloc (malloc m).2).1
        · exact ⟨es, rfl, hlen, hgood⟩
        · refine ⟨es ++ [(key, value)], ?_, by simp; omega, ?_⟩
          · simp only [if_true]
            exact storeOf_push key value hlt
          · unfold regularKeysDistinct at hgood ⊢
            rw [List.map_append, List.filter_append]
            cases hk : isRegularKey key with
            | false => simpa [hk] using hgood
            | true =>
              have := storeOf_lookup_none hlen hl hk
              simp only [List.map_cons, List.map_nil, List.filter_cons, hk, if_true,
                List.filter_nil]
              rw [List.nodup_append]
              refine ⟨hgood, List.nodup_singleton _, ?_⟩
              intro x hx hx2
              rw [List.mem_singleton] at hx2
              subst hx2
              exact this (List.mem_of_mem_filter hx)

/-- Every store reachable through the public setters has its occupied slots
first, a value in each of them, and pairwise distinct looked-up keys. -/
theorem Reachable.storeOf {cf : xcf_entry} (h : Reachable cf) :
    ∃ es, cf = storeOf cf.max es ∧ es.length ≤ cf.max.toNat ∧ regularKeysDistinct es := by
  induction h with
  | create max m cf hc =>
    refine ⟨[], ?_, by simp, by simp [regularKeysDistinct]⟩
    rw [CfCreate_some hc]
    simp [Cf.storeOf, slots]
  | setKey cf key value m _ ih =>
    obtain ⟨es, h1, h2, h3⟩ := ih
    obtain ⟨es2, a1, a2, a3⟩ := CfSetKey_storeOf cf.max es key value m h2 h3
    rw [← h1] at a1
    have hmax : (CfSetKey cf key value m).2.1.max = cf.max := by rw [a1]; rfl
    exact ⟨es2, by rw [hmax]; exact a1, by rw [hmax]; exact a2, a3⟩
  | setBool cf key value m _ ih =>
    obtain ⟨es, h1, h2, h3⟩ := ih
    obtain ⟨es2, a1, a2, a3⟩ := CfSetKey_storeOf cf.max es key
      (if value ≠ 0 then "true".toList else "false".toList) m h2 h3
    rw [← h1] at a1
    have hmax : (CfSetBool cf key value m).2.1.max = cf.max := by
      unfold CfSetBool; rw [a1]; rfl
    exact ⟨es2, by rw [hmax]; exact a1, by rw [hmax]; exact a2, a3⟩
  | setStr cf key value m _ ih =>
    obtain ⟨es, h1, h2, h3⟩ := ih
    unfold CfSetStr
    rcases hm : malloc m with ⟨b, m1⟩
    cases b
    · exact ⟨es, h1, h2, h3⟩
    · simp only []
      obtain ⟨es2, a1, a2, a3⟩ :=
        CfSetKey_storeOf cf.max es key (cstr (CfSetStrBuf value)) m1 h2 h3
      rw [← h1] at a1
      have hmax : (CfSetKey cf key (cstr (CfSetStrBuf value)) m1).2.1.max = cf.max := by
        rw [a1]; rfl
      exact ⟨es2, by rw [hmax]; exact a1, by rw [hmax]; exact a2, a3⟩

/-! ## What CfWrite emits for such a store -/

theorem CfWriteLoop_shift (a b : Option CStr) (K V : List (Option CStr)) :
    ∀ n i, CfWriteLoop (a :: K) (b :: V) n (i + 1) = CfWriteLoop K V n i := by
  intro n
  induction n with
  | zero => intro i; rfl
  | succ n ih =>
    intro i
    simp only [CfWriteLoop, ih, List.getD_cons_succ]

theorem CfWriteLoop_free {K V : List (Option CStr)} :
    ∀ n i, (∀ t, i ≤ t → K.getD t none = none) → CfWriteLoop K V n i = [] := by
  intro n
  induction n with
  | zero => intro i _; rfl
  | succ n ih =>
    intro i h
    simp only [CfWriteLoop, h i (le_refl _), CfWriteSlot, List.nil_append]
    exact ih (i + 1) (fun t ht => h t (by omega))

theorem slots_cons {n : Nat} (x : CStr) (xs : List CStr) :
    slots (n + 1) (x :: xs) = some x :: slots n xs := by
  simp [slots]

theorem CfWriteLoop_slots :
    ∀ (es : List (CStr × CStr)) (n : Nat), es.length ≤ n →
      CfWriteLoop (slots n (es.map Prod.fst)) (slots n (es.map Prod.snd)) n 0 =
        es.flatMap (fun e => CfWriteSlot (some e.1) (some e.2)) := by
  intro es
  induction es with
  | nil =>
    intro n _
    rw [CfWriteLoop_free n 0 (fun t _ => by rw [slots_getD]; rfl)]
    rfl
  | cons e es ih =>
    intro n hn
    cases n with
    | zero => simp at hn
    | succ n =>
      simp only [List.map_cons, slots_cons, CfWriteLoop, List.getD_cons_zero, CfWriteLoop_shift,
        List.flatMap_cons]
      rw [ih n (by simpa using hn)]

/-- The text `CfWrite` emits for a store whose occupied slots come first: the
lines of its entries, in order. -/
theorem CfWriteText_storeOf {max : Int} {es : List (CStr × CStr)} (h : es.length ≤ max.toNat) :
    CfWriteText (storeOf max es) = es.flatMap (fun e => CfWriteSlot (some e.1) (some e.2)) :=
  CfWriteLoop_slots es max.toNat h

theorem entries_slots :
    ∀ (es : List (CStr × CStr)) (n : Nat), es.length ≤ n →
      ((slots n (es.map Prod.fst)).zip (slots n (es.map Prod.snd))).filterMap
        (fun kv => kv.1.map (fun k => (k, kv.2.getD []))) = es := by
  intro es
  induction es with
  | nil =>
    intro n _
    simp only [List.map_nil, slots, List.nil_append, List.length_nil, Nat.sub_zero]
    induction n with
    | zero => rfl
    | succ n ih => simp [List.replicate_succ]
  | cons e es ih =>
    intro n hn
    cases n with
    | zero => simp at hn
    | succ n =>
      simp only [List.map_cons, slots_cons, List.zip_cons_cons, List.filterMap_cons,
        Option.map_some', Option.getD_some]
      rw [ih n (by simpa using hn)]

theorem entries_storeOf {max : Int} {es : List (CStr × CStr)} (h : es.length ≤ max.toNat) :
    entries (storeOf max es) = es :=
  entries_slots es max.toNat h

/-! ## Reading one line -/

theorem fgetsLoop_line (rest : List Char) :
    ∀ (line : List Char) (k : Nat), (∀ c ∈ line, c ≠ '\n') → line.length < k →
      fgetsLoop k (line ++ '\n' :: rest) = (line ++ ['\n'], rest) := by
  intro line
  induction line with
  | nil =>
    intro k _ hk
    cases k with
    | zero => simp at hk
    | succ k => simp [fgetsLoop]
  | cons c cs ih =>
    intro k hc hk
    cases k with
    | zero => simp at hk
    | succ k =>
      have h1 : c ≠ '\n' := hc c (List.mem_cons_self _ _)
      have h2 := ih k (fun x hx => hc x (List.mem_cons_of_mem _ hx)) (by simpa using hk)
      rw [List.cons_append, fgetsLoop, if_neg h1, h2]
      rfl

/-- With the buffer of `XCF_BF_SIZE` bytes, `fgets` reads a line of at most 128
characters whole, newline included. -/
theorem fgets_line {line : List Char} (rest : List Char) (hc : ∀ c ∈ line, c ≠ '\n')
    (hlen : line.length ≤ 128) :
    fgets XCF_BF_SIZE (line ++ '\n' :: rest) = some (line ++ ['\n'], rest) := by
  have := fgetsLoop_line rest line (XCF_BF_SIZE - 1) hc (by simp [XCF_BF_SIZE]; omega)
  cases line with
  | nil => simp only [List.nil_append] at this ⊢; simp only [fgets, this]
  | cons c cs => simp only [List.cons_append] at this ⊢; simp only [fgets, this]

/-- The body of the loop of `CfRead` on a string that ends with a newline. -/
theorem CfReadLine_newline (cf : xcf_entry) (line : CStr) (cmt : Int) (m : Mem) :
    CfReadLine cf (line ++ ['\n']) cmt m =
      match xCfRtSpaces (xCfLfSpaces line) with
      | [] => CfReadComment cf [] cmt m
      | c :: t =>
        if c = '#' ∨ c = ';' then CfReadComment cf (c :: t) cmt m
        else CfReadPair cf (c :: t) m := by
  unfold CfReadLine
  simp only [List.getLast?_concat, ne_eq, not_true_eq_false, false_and, if_false, if_true,
    List.dropLast_concat]
  split <;> rename_i h <;> simp [h]

theorem isBlank_eq_true {c : Char} (h : isBlank c = true) : c = ' ' ∨ c = '\t' := by
  simpa [isBlank] using h

theorem not_isBlank_of_isKeyChar {c : Char} (h : isKeyChar c = true) : isBlank c = false := by
  cases hb : isBlank c with
  | false => rfl
  | true =>
    rcases isBlank_eq_true hb with e | e <;> subst e <;> revert h <;> decide

theorem noBlankEnds_head {c : Char} {t : CStr} (h : noBlankEnds (c :: t) = true) :
    isBlank c = false := by
  simp only [noBlankEnds, List.head?_cons, Option.all_some, Bool.and_eq_true,
    Bool.not_eq_true'] at h
  exact h.1

theorem noBlankEnds_last {L : CStr} {b : Char} (h : noBlankEnds (L ++ [b]) = true) :
    isBlank b = false := by
  simp only [noBlankEnds, List.getLast?_concat, Option.all_some, Bool.and_eq_true,
    Bool.not_eq_true'] at h
  exact h.2

theorem xCfLfSpaces_noBlankEnds {v : CStr} (h : noBlankEnds v = true) : xCfLfSpaces v = v := by
  cases v with
  | nil => rfl
  | cons c t =>
    unfold xCfLfSpaces
    rw [List.dropWhile_cons_of_neg]
    rw [noBlankEnds_head h]
    simp

theorem xCfRtSpaces_append {v : CStr} (pre : CStr) (hv : v ≠ []) (h : noBlankEnds v = true) :
    xCfRtSpaces (pre ++ v) = pre ++ v := by
  rcases List.eq_nil_or_concat v with e | ⟨L, b, e⟩
  · exact absurd e hv
  · rw [List.concat_eq_append] at e
    subst e
    unfold xCfRtSpaces
    rw [← List.append_assoc, List.rdropWhile_concat_neg]
    rw [noBlankEnds_last h]
    simp

theorem sep_eq : " = ".toList = [' ', '=', ' '] := rfl

theorem sep_space : " ".toList = [' '] := rfl

/-- The line of a key / value pair, read back: `CfSetKey` of that pair. -/
theorem CfReadLine_pair (cf : xcf_entry) {k v : CStr} (cmt : Int) (m : Mem)
    (hk : validKeyName k = true) (hv : v ≠ []) (hl : noBlankEnds v = true) :
    CfReadLine cf (CfWriteSlot (some k) (some v)) cmt m =
      ((if (CfSetKey cf k v m).1 ≠ 0 then -1 else 0), (CfSetKey cf k v m).2.1,
        (CfSetKey cf k v m).2.2) := by
  have hreg := isRegularKey_of_validKeyName hk
  cases k with
  | nil => simp [validKeyName] at hk
  | cons c cs =>
    cases v with
    | nil => exact absurd rfl hv
    | cons v0 vt =>
      simp only [validKeyName, List.all_cons, Bool.and_eq_true] at hk
      obtain ⟨-, hc, hcs⟩ := hk
      have hcs2 : ∀ x ∈ cs, isKeyChar x = true := by simpa using hcs
      simp only [isRegularKey] at hreg
      have hw : CfWriteSlot (some (c :: cs)) (some (v0 :: vt)) =
          (c :: (cs ++ ' ' :: '=' :: ' ' :: v0 :: vt)) ++ ['\n'] := by
        simp [CfWriteSlot, hreg, sep_eq]
      rw [hw, CfReadLine_newline]
      have lf : xCfLfSpaces (c :: (cs ++ ' ' :: '=' :: ' ' :: v0 :: vt)) =
          c :: (cs ++ ' ' :: '=' :: ' ' :: v0 :: vt) := by
        unfold xCfLfSpaces
        rw [List.dropWhile_cons_of_neg]
        rw [not_isBlank_of_isKeyChar hc]
        simp
      have rt : xCfRtSpaces (c :: (cs ++ ' ' :: '=' :: ' ' :: v0 :: vt)) =
          c :: (cs ++ ' ' :: '=' :: ' ' :: v0 :: vt) := by
        have := xCfRtSpaces_append (c :: (cs ++ [' ', '=', ' '])) hv hl
        simpa using this
      rw [lf, rt]
      simp only []
      have hc1 : ¬ (c = '#' ∨ c = ';') := by
        simp only [Bool.and_eq_true, bne_iff_ne, ne_eq] at hreg
        tauto
      rw [if_neg hc1]
      have tw : List.takeWhile isKeyChar (c :: (cs ++ ' ' :: '=' :: ' ' :: v0 :: vt)) =
          c :: cs := by
        rw [List.takeWhile_cons_of_pos hc, List.takeWhile_append_of_pos hcs2]
        simp [List.takeWhile_cons, show isKeyChar ' ' = false by decide]
      have dw : List.dropWhile isKeyChar (c :: (cs ++ ' ' :: '=' :: ' ' :: v0 :: vt)) =
          ' ' :: '=' :: ' ' :: v0 :: vt := by
        rw [List.dropWhile_cons_of_pos hc, List.dropWhile_append_of_pos hcs2]
        simp [List.dropWhile_cons, show isKeyChar ' ' = false by decide]
      have l1 : xCfLfSpaces ('=' :: ' ' :: v0 :: vt) = '=' :: ' ' :: v0 :: vt := by
        simp [xCfLfSpaces, List.dropWhile_cons, show isBlank '=' = false by decide]
      have l2 : xCfLfSpaces (' ' :: v0 :: vt) = v0 :: vt := by
        have := xCfLfSpaces_noBlankEnds hl
        unfold xCfLfSpaces at this ⊢
        rw [List.dropWhile_cons_of_pos (by decide), this]
      unfold CfReadPair
      simp only [tw, dw]
      simp only [l1, l2, show (' ' : Char) ≠ '=' by decide, ne_eq, not_true_eq_false,
        not_false_eq_true, if_true, if_false, false_and, and_false, or_false,
        reduceCtorEq]

/-- The line of a comment, read back with comment preservation: `CfSetKey` of
the marker and the text. -/
theorem CfReadLine_comment (cf : xcf_entry) {c : Char} {v : CStr} {cmt : Int} (m : Mem)
    (hcmt : cmt ≠ 0) (hc : c = '#' ∨ c = ';') (hl : noBlankEnds v = true) :
    CfReadLine cf (CfWriteSlot (some [c]) (some v)) cmt m =
      ((if (CfSetKey cf [c] v m).1 ≠ 0 then -1 else 0), (CfSetKey cf [c] v m).2.1,
        (CfSetKey cf [c] v m).2.2) := by
  have hnb : isBlank c = false := by
    rcases hc with e | e <;> subst e <;> decide
  have hreg : (c != '#' && c != ';') = false := by
    rcases hc with e | e <;> subst e <;> decide
  have hw : CfWriteSlot (some [c]) (some v) = (c :: ' ' :: v) ++ ['\n'] := by
    simp [CfWriteSlot, hreg, sep_space]
  rw [hw, CfReadLine_newline]
  have lf : xCfLfSpaces (c :: ' ' :: v) = c :: ' ' :: v := by
    unfold xCfLfSpaces
    rw [List.dropWhile_cons_of_neg]
    rw [hnb]
    simp
  rw [lf]
  cases v with
  | nil =>
    have rt : xCfRtSpaces [c, ' '] = [c] := by
      unfold xCfRtSpaces
      rw [show [c, ' '] = [c] ++ [' '] from rfl, List.rdropWhile_concat_pos _ _ _ (by decide),
        show [c] = [] ++ [c] from rfl, List.rdropWhile_concat_neg]
      rw [hnb]
      simp
    rw [rt]
    simp only [hc, if_true, CfReadComment, hcmt, ne_eq, not_false_eq_true, List.take_succ_cons,
      List.take_zero, xCfLfSpaces, List.dropWhile_nil]
  | cons v0 vt =>
    have rt : xCfRtSpaces (c :: ' ' :: v0 :: vt) = c :: ' ' :: v0 :: vt := by
      have := xCfRtSpaces_append [c, ' '] (List.cons_ne_nil v0 vt) hl
      simpa using this
    have l2 : xCfLfSpaces (' ' :: v0 :: vt) = v0 :: vt := by
      have := xCfLfSpaces_noBlankEnds hl
      unfold xCfLfSpaces at this ⊢
      rw [List.dropWhile_cons_of_pos (by decide), this]
    rw [rt]
    simp only [hc, if_true, CfReadComment, hcmt, ne_eq, not_false_eq_true, List.take_succ_cons,
      List.take_zero, l2]

/-- A blank line, read back with comment preservation: `CfSetKey` of the empty
key and the empty value. -/
theorem CfReadLine_blank (cf : xcf_entry) {cmt : Int} (m : Mem) (hcmt : cmt ≠ 0) :
    CfReadLine cf (CfWriteSlot (some []) (some [])) cmt m =
      ((if (CfSetKey cf [] [] m).1 ≠ 0 then -1 else 0), (CfSetKey cf [] [] m).2.1,
        (CfSetKey cf [] [] m).2.2) := by
  have := CfReadLine_newline cf [] cmt m
  simp only [List.nil_append] at this
  simp only [CfWriteSlot, this, xCfLfSpaces, xCfRtSpaces, List.dropWhile_nil,
    List.rdropWhile_nil, CfReadComment, hcmt, ne_eq, not_false_eq_true, if_true, List.take_nil]

theorem fileEntry_cases {e : CStr × CStr} (h : fileEntry e = true) :
    (validKeyName e.1 = true ∧ e.2 ≠ [] ∧ lineValue e.2 = true ∧
        e.1.length + 3 + e.2.length ≤ 128) ∨
      ((∃ c, (c = '#' ∨ c = ';') ∧ e.1 = [c]) ∧ lineValue e.2 = true ∧
        2 + e.2.length ≤ 128) ∨
      (e.1 = [] ∧ e.2 = []) := by
  simp only [fileEntry, Bool.or_eq_true, Bool.and_eq_true, bne_iff_ne, ne_eq, beq_iff_eq,
    decide_eq_true_eq] at h
  rcases h with (⟨⟨⟨a, b⟩, c⟩, d⟩ | ⟨⟨a, b⟩, c⟩) | ⟨a, b⟩
  · exact Or.inl ⟨a, b, c, d⟩
  · refine Or.inr (Or.inl ⟨?_, b, c⟩)
    rcases a with a | a
    · exact ⟨'#', Or.inl rfl, a⟩
    · exact ⟨';', Or.inr rfl, a⟩
  · exact Or.inr (Or.inr ⟨a, b⟩)

/-- The line of an entry that a file can carry, read back with comment
preservation: `CfSetKey` of the entry. -/
theorem CfReadLine_fileEntry (cf : xcf_entry) {e : CStr × CStr} {cmt : Int} (m : Mem)
    (hcmt : cmt ≠ 0) (he : fileEntry e = true) :
    CfReadLine cf (CfWriteSlot (some e.1) (some e.2)) cmt m =
      ((if (CfSetKey cf e.1 e.2 m).1 ≠ 0 then -1 else 0), (CfSetKey cf e.1 e.2 m).2.1,
        (CfSetKey cf e.1 e.2 m).2.2) := by
  rcases fileEntry_cases he with ⟨a, b, c, -⟩ | ⟨⟨c, hc, a⟩, b, -⟩ | ⟨a, b⟩
  · simp only [lineValue, Bool.and_eq_true] at c
    exact CfReadLine_pair cf cmt m a b c.1
  · simp only [lineValue, Bool.and_eq_true] at b
    rw [a]
    exact CfReadLine_comment cf m hcmt hc b.1
  · rw [a, b]
    exact CfReadLine_blank cf m hcmt

/-- The line of an entry that a file can carry: at most 128 characters, then a newline. -/
theorem fileEntry_line {e : CStr × CStr} (he : fileEntry e = true) :
    ∃ line, CfWriteSlot (some e.1) (some e.2) = line ++ ['\n'] ∧
      (∀ c ∈ line, c ≠ '\n') ∧ line.length ≤ 128 := by
  rcases fileEntry_cases he with ⟨a, -, c, d⟩ | ⟨⟨c, hc, a⟩, b, d⟩ | ⟨a, b⟩
  · have hreg := isRegularKey_of_validKeyName a
    simp only [lineValue, Bool.and_eq_true, List.all_eq_true, bne_iff_ne, ne_eq] at c
    simp only [validKeyName, Bool.and_eq_true, List.all_eq_true] at a
    cases hk : e.1 with
    | nil => rw [hk] at hreg; simp [isRegularKey] at hreg
    | cons k0 kt =>
      rw [hk] at hreg d a
      simp only [isRegularKey] at hreg
      refine ⟨(k0 :: kt) ++ [' ', '=', ' '] ++ e.2, ?_, ?_, ?_⟩
      · simp [CfWriteSlot, hreg, sep_eq]
      · intro x hx
        simp only [List.mem_append, List.mem_cons, List.mem_singleton, List.not_mem_nil,
          or_false] at hx
        rcases hx with (hx | hx) | hx
        · have : isKeyChar x = true := a.2 x (by simpa using hx)
          rintro rfl
          revert this
          decide
        · rcases hx with rfl | rfl | rfl <;> decide
        · exact c.2 x hx
      · simp only [List.length_append, List.length_cons, List.length_nil] at d ⊢
        omega
  · simp only [lineValue, Bool.and_eq_true, List.all_eq_true, bne_iff_ne, ne_eq] at b
    have hreg : (c != '#' && c != ';') = false := by
      rcases hc with e | e <;> subst e <;> decide
    refine ⟨c :: ' ' :: e.2, ?_, ?_, ?_⟩
    · rw [a]
      simp [CfWriteSlot, hreg, sep_space]
    · intro x hx
      simp only [List.mem_cons] at hx
      rcases hx with rfl | rfl | hx
      · rcases hc with e | e <;> subst e <;> decide
      · decide
      · exact b.2 x hx
    · simp only [List.length_cons]
      omega
  · refine ⟨[], ?_, by simp, by simp⟩
    rw [a, b]
    rfl

/-! ## The loop of CfRead never runs out of fuel -/

theorem fgetsLoop_rest_lt :
    ∀ (k : Nat) (c : Char) (fp : List Char),
      (fgetsLoop (k + 1) (c :: fp)).2.length < (c :: fp).length := by
  intro k
  induction k with
  | zero =>
    intro c fp
    simp only [fgetsLoop]
    split <;> simp
  | succ k ih =>
    intro c fp
    rw [fgetsLoop]
    split
    · simp
    · cases fp with
      | nil => simp [fgetsLoop]
      | cons d fp =>
        have := ih d fp
        simp only [List.length_cons] at this ⊢
        omega

theorem fgets_rest_lt {fp buf fp1 : List Char} (h : fgets XCF_BF_SIZE fp = some (buf, fp1)) :
    fp1.length < fp.length := by
  cases fp with
  | nil => simp [fgets] at h
  | cons c fp =>
    simp only [fgets, Option.some.injEq] at h
    have := fgetsLoop_rest_lt 128 c fp
    rw [show XCF_BF_SIZE - 1 = 128 + 1 from rfl] at h
    rw [h] at this
    exact this

/-- Any fuel above the length of the file gives the same result. -/
theorem CfReadLoop_fuel :
    ∀ (f1 f2 : Nat) (cf : xcf_entry) (fp : List Char) (cmt : Int) (m : Mem),
      fp.length < f1 → fp.length < f2 →
      CfReadLoop f1 cf fp cmt m = CfReadLoop f2 cf fp cmt m := by
  intro f1
  induction f1 with
  | zero => intro f2 cf fp cmt m h; omega
  | succ a ih =>
    intro f2 cf fp cmt m h1 h2
    cases f2 with
    | zero => omega
    | succ b =>
      simp only [CfReadLoop]
      cases hf : fgets XCF_BF_SIZE fp with
      | none => rfl
      | some r =>
        obtain ⟨buf, fp1⟩ := r
        have := fgets_rest_lt hf
        simp only []
        split
        · rfl
        · exact ih b _ fp1 cmt _ (by omega) (by omega)

/-- The equation of the loop of `CfRead`, free of fuel: read a string with
`fgets`, run the body, and go on with the rest of the file unless it broke. -/
theorem CfRead_loop (cf : xcf_entry) (fp : List Char) (cmt : Int) (m : Mem) :
    CfRead cf (some fp) cmt m =
      match fgets XCF_BF_SIZE fp with
      | none => (0, cf, m)
      | some (buf, fp1) =>
        if (CfReadLine cf buf cmt m).1 ≠ 0 then CfReadLine cf buf cmt m
        else CfRead (CfReadLine cf buf cmt m).2.1 (some fp1) cmt (CfReadLine cf buf cmt m).2.2 := by
  simp only [CfRead, CfReadLoop]
  cases hf : fgets XCF_BF_SIZE fp with
  | none => rfl
  | some r =>
    obtain ⟨buf, fp1⟩ := r
    have := fgets_rest_lt hf
    simp only []
    split
    · rfl
    · exact CfReadLoop_fuel fp.length (fp1.length + 1) _ fp1 cmt _ this (by omega)

/-! ## Reading back what was written -/

theorem regularKeysDistinct_middle {es1 es2 : List (CStr × CStr)} {e : CStr × CStr}
    (h : regularKeysDistinct (es1 ++ e :: es2)) :
    isRegularKey e.1 = true → e.1 ∉ es1.map Prod.fst := by
  intro hk hmem
  unfold regularKeysDistinct at h
  rw [List.map_append, List.filter_append, List.map_cons, List.filter_cons, hk, if_pos rfl,
    List.nodup_append] at h
  exact h.2.2 (List.mem_filter.mpr ⟨hmem, hk⟩) (List.mem_cons_self _ _)

/-- The loop of `CfRead`, with comment preservation and with memory, on the
lines of entries that a file can carry: each entry is added after the ones
the store holds, as long as there is room and no looked-up key comes twice. -/
theorem CfReadLoop_fileEntries (M : Int) {cmt : Int} (hcmt : cmt ≠ 0) :
    ∀ (es2 es1 : List (CStr × CStr)) (fuel : Nat) (m : Mem),
      (∀ e ∈ es2, fileEntry e = true) → regularKeysDistinct (es1 ++ es2) →
      (es1 ++ es2).length ≤ M.toNat → (∀ b ∈ m, b = true) →
      (es2.flatMap (fun e => CfWriteSlot (some e.1) (some e.2))).length < fuel →
      (CfReadLoop fuel (storeOf M es1)
          (es2.flatMap (fun e => CfWriteSlot (some e.1) (some e.2))) cmt m).1 = 0 ∧
        (CfReadLoop fuel (storeOf M es1)
          (es2.flatMap (fun e => CfWriteSlot (some e.1) (some e.2))) cmt m).2.1 =
          storeOf M (es1 ++ es2) := by
  intro es2
  induction es2 with
  | nil =>
    intro es1 fuel m _ _ _ _ hfuel
    cases fuel with
    | zero => simp at hfuel
    | succ f => simp [CfReadLoop, fgets]
  | cons e es2 ih =>
    intro es1 fuel m hfile hgood hlen hm hfuel
    have he : fileEntry e = true := hfile e (List.mem_cons_self _ _)
    obtain ⟨line, hline, hnl, hll⟩ := fileEntry_line he
    rw [List.flatMap_cons, hline, List.append_assoc, List.singleton_append] at hfuel ⊢
    cases fuel with
    | zero => simp at hfuel
    | succ f =>
      have hroom : es1.length < M.toNat := by
        simp only [List.length_append, List.length_cons] at hlen
        omega
      obtain ⟨hset, hm2⟩ := @CfSetKey_storeOf_append M es1 e.1 e.2 m
        hroom (regularKeysDistinct_middle hgood) hm
      have hread := CfReadLine_fileEntry (storeOf M es1) m hcmt he
      rw [hline, hset] at hread
      have hrest : (es2.flatMap (fun e => CfWriteSlot (some e.1) (some e.2))).length < f := by
        simp only [List.length_append, List.length_cons] at hfuel
        omega
      have hassoc : es1 ++ [(e.1, e.2)] ++ es2 = es1 ++ e :: es2 := by simp
      obtain ⟨r1, r2⟩ := ih (es1 ++ [(e.1, e.2)]) f (malloc (malloc m).2).2
        (fun x hx => hfile x (List.mem_cons_of_mem _ hx))
        (by rw [hassoc]; exact hgood) (by rw [hassoc]; exact hlen) hm2 hrest
      rw [hassoc] at r2
      simp only [CfReadLoop, fgets_line _ hnl hll, hread]
      exact ⟨r1, r2⟩

/-! ## C10: CfWrite then CfRead -/

/-- C10 as stated fails. The store made by `CfCreate(1)` and `CfSetKey(cf, "a", "")`
is reachable through the public setters; `CfWrite` emits the line `a = ` for it,
and `CfRead` of that text (with comment preservation) into a fresh store of one
slot returns `-1`: a line with nothing after the `=` is rejected. -/
theorem C10_counterexample :
    (CfCreate 1 []).1 = some ⟨[none], [none], 1⟩ ∧
      CfSetKey ⟨[none], [none], 1⟩ "a".toList [] [] =
        (0, ⟨[some "a".toList], [some []], 1⟩, []) ∧
      CfWrite ⟨[some "a".toList], [some []], 1⟩ true true = (0, some "a = \n".toList) ∧
      (CfRead ⟨[none], [none], 1⟩ (some "a = \n".toList) 1 []).1 = -1 := by
  decide

/-- C10, amended: for every store `s` reachable through the public setters in
which every entry is one a file can carry (a valid key name with a non-empty
value that has no newline and no space or tab at its ends, on a line of at
most 128 characters; or the key `#` or `;` with such a text, possibly empty;
or the empty key with the empty value), `CfWrite s` succeeds when the file
opens and closes, and `CfRead` of the written text, with comment preservation
and with memory, into a fresh store of equal or greater capacity succeeds and
yields a store with the same regular key / value pairs as `s` and the same
comment and blank entries in the same order. -/
theorem C10_write_read_roundtrip (s fresh : xcf_entry) (M cmt : Int) (m0 m : Mem)
    (hr : Reachable s) (hfile : ∀ e ∈ entries s, fileEntry e = true)
    (hfresh : (CfCreate M m0).1 = some fresh) (hM : s.max ≤ M) (hcmt : cmt ≠ 0)
    (hm : ∀ b ∈ m, b = true) :
    (CfWrite s true true).1 = 0 ∧
      (CfRead fresh (CfWrite s true true).2 cmt m).1 = 0 ∧
      (∀ k v, isRegularKey k = true →
        ((k, v) ∈ entries (CfRead fresh (CfWrite s true true).2 cmt m).2.1 ↔
          (k, v) ∈ entries s)) ∧
      (entries (CfRead fresh (CfWrite s true true).2 cmt m).2.1).filter
          (fun e => !isRegularKey e.1) =
        (entries s).filter (fun e => !isRegularKey e.1) := by
  obtain ⟨es, hs, hlen, hgood⟩ := hr.storeOf
  have hlenM : es.length ≤ M.toNat := le_trans hlen (Int.toNat_le_toNat hM)
  have hent : entries s = es := by rw [hs]; exact entries_storeOf hlen
  have htext : CfWriteText s = es.flatMap (fun e => CfWriteSlot (some e.1) (some e.2)) := by
    rw [hs]; exact CfWriteText_storeOf hlen
  have hf : fresh = storeOf M [] := by
    rw [CfCreate_some hfresh]
    simp [storeOf, slots]
  rw [hent] at hfile
  obtain ⟨r1, r2⟩ := CfReadLoop_fileEntries M hcmt es []
    ((es.flatMap (fun e => CfWriteSlot (some e.1) (some e.2))).length + 1) m hfile
    (by simpa using hgood) (by simpa using hlenM) hm (Nat.lt_succ_self _)
  have hread : CfRead fresh (CfWrite s true true).2 cmt m =
      CfReadLoop ((es.flatMap (fun e => CfWriteSlot (some e.1) (some e.2))).length + 1)
        (storeOf M []) (es.flatMap (fun e => CfWriteSlot (some e.1) (some e.2))) cmt m := by
    simp only [CfWrite, if_true, CfRead, htext, hf]
  rw [hread, r2, List.nil_append, entries_storeOf hlenM, hent]
  exact ⟨rfl, r1, fun _ _ _ => Iff.rfl, rfl⟩

/-- C10, amended, on the store made by `CfCreate(3)`, a comment, a blank line
and the key `year`, read back into a fresh store of four slots. -/
theorem C10_write_read_roundtrip_witness :
    (CfWrite (CfSetKey (CfSetKey (CfSetKey ⟨[none, none, none], [none, none, none], 3⟩
        "#".toList "a note".toList []).2.1 [] [] []).2.1
        "year".toList "1969".toList []).2.1 true true).1 = 0 ∧
      (CfRead ⟨[none, none, none, none], [none, none, none, none], 4⟩
        (CfWrite (CfSetKey (CfSetKey (CfSetKey ⟨[none, none, none], [none, none, none], 3⟩
          "#".toList "a note".toList []).2.1 [] [] []).2.1
          "year".toList "1969".toList []).2.1 true true).2 1 []).1 = 0 ∧
      (∀ k v, isRegularKey k = true →
        ((k, v) ∈ entries (CfRead ⟨[none, none, none, none], [none, none, none, none], 4⟩
          (CfWrite (CfSetKey (CfSetKey (CfSetKey ⟨[none, none, none], [none, none, none], 3⟩
            "#".toList "a note".toList []).2.1 [] [] []).2.1
            "year".toList "1969".toList []).2.1 true true).2 1 []).2.1 ↔
          (k, v) ∈ entries (CfSetKey (CfSetKey (CfSetKey
            ⟨[none, none, none], [none, none, none], 3⟩
            "#".toList "a note".toList []).2.1 [] [] []).2.1
            "year".toList "1969".toList []).2.1)) ∧
      (entries (CfRead ⟨[none, none, none, none], [none, none, none, none], 4⟩
          (CfWrite (CfSetKey (CfSetKey (CfSetKey ⟨[none, none, none], [none, none, none], 3⟩
            "#".toList "a note".toList []).2.1 [] [] []).2.1
            "year".toList "1969".toList []).2.1 true true).2 1 []).2.1).filter
          (fun e => !isRegularKey e.1) =
        (entries (CfSetKey (CfSetKey (CfSetKey ⟨[none, none, none], [none, none, none], 3⟩
          "#".toList "a note".toList []).2.1 [] [] []).2.1
          "year".toList "1969".toList []).2.1).filter (fun e => !isRegularKey e.1) :=
  C10_write_read_roundtrip _ ⟨[none, none, none, none], [none, none, none, none], 4⟩ 4 1 [] []
    (Reachable.setKey _ _ _ _ (Reachable.setKey _ _ _ _ (Reachable.setKey _ _ _ _
      (Reachable.create 3 [] ⟨[none, none, none], [none, none, none], 3⟩ (by decide)))))
    (by decide) (by decide) (by decide) (by decide) (by simp)

/-! ## One line of a file -/

theorem xCfRtSpaces_append_blank (l : CStr) {w : CStr} (hw : ∀ x ∈ w, isBlank x = true) :
    xCfRtSpaces (l ++ w) = xCfRtSpaces l := by
  unfold xCfRtSpaces List.rdropWhile
  rw [List.reverse_append, List.dropWhile_append_of_pos (by simpa using hw)]

theorem xCfLfSpaces_append_blank {w : CStr} (l : CStr) (hw : ∀ x ∈ w, isBlank x = true) :
    xCfLfSpaces (w ++ l) = xCfLfSpaces l := by
  unfold xCfLfSpaces
  rw [List.dropWhile_append_of_pos hw]

theorem CfSetKey_status (cf : xcf_entry) (key value : CStr) (m : Mem) :
    (CfSetKey cf key value m).1 = 0 ∨ (CfSetKey cf key value m).1 = -1 := by
  cases hl : (if isRegularKey key then xCfFind cf.keys cf.max key else none) with
  | some e =>
    rw [CfSetKey_update value m hl]
    cases (malloc m).1 <;> simp
  | none =>
    rcases first_free_or_full cf.keys cf.max.toNat with hfull | ⟨j, h1, h2, h3⟩
    · rw [CfSetKey_full value m hl hfull]; simp
    · rw [CfSetKey_add value m hl h1 h2 h3]
      cases (malloc m).1
      · simp
      · cases (malloc (malloc m).2).1 <;> simp

/-- The status `CfRead` derives from a call of `CfSetKey` is the status of that call. -/
theorem CfSetKey_err (cf : xcf_entry) (key value : CStr) (m : Mem) :
    ((if (CfSetKey cf key value m).1 ≠ 0 then -1 else 0), (CfSetKey cf key value m).2.1,
      (CfSetKey cf key value m).2.2) = CfSetKey cf key value m := by
  apply Prod.ext
  · show (if (CfSetKey cf key value m).1 ≠ 0 then -1 else 0) = (CfSetKey cf key value m).1
    rcases CfSetKey_status cf key value m with h | h <;> rw [h] <;> rfl
  · rfl

theorem CfRead_nil (cf : xcf_entry) (cmt : Int) (m : Mem) :
    CfRead cf (some []) cmt m = (0, cf, m) := by
  simp [CfRead, CfReadLoop, fgets]

/-- The body of the loop of `CfRead` on a last line without newline. -/
theorem CfReadLine_eof (cf : xcf_entry) {line : CStr} (cmt : Int) (m : Mem)
    (hnl : noNewline line) (hlen : line.length ≤ 128) :
    CfReadLine cf line cmt m = CfReadLine cf (line ++ ['\n']) cmt m := by
  have hlast : line.getLast? ≠ some '\n' := by
    intro h
    exact hnl _ (List.mem_of_getLast?_eq_some h) rfl
  have hk : ¬ (line.length = XCF_BF_SIZE - 1) := by
    simp only [XCF_BF_SIZE]; omega
  unfold CfReadLine
  simp only [hlast, hk, and_false, if_false, List.getLast?_concat, ne_eq, not_true_eq_false,
    false_and, if_true, List.dropLast_concat]

/-- A file of one line ended by a newline: `CfRead` runs the body of its loop once. -/
theorem CfRead_line (cf : xcf_entry) {line : CStr} (cmt : Int) (m : Mem)
    (hnl : noNewline line) (hlen : line.length ≤ 128) :
    CfRead cf (some (line ++ ['\n'])) cmt m = CfReadLine cf (line ++ ['\n']) cmt m := by
  rw [CfRead_loop, fgets_line [] hnl hlen]
  simp only []
  split
  · rfl
  · rename_i h
    rw [CfRead_nil]
    have h0 : (CfReadLine cf (line ++ ['\n']) cmt m).1 = 0 := by simpa using h
    rw [← h0]

theorem fgetsLoop_eof :
    ∀ (line : List Char) (k : Nat), (∀ c ∈ line, c ≠ '\n') → line.length ≤ k →
      fgetsLoop k line = (line, []) := by
  intro line
  induction line with
  | nil => intro k _ _; cases k <;> rfl
  | cons c cs ih =>
    intro k hc hk
    cases k with
    | zero => simp at hk
    | succ k =>
      have h1 : c ≠ '\n' := hc c (List.mem_cons_self _ _)
      have h2 := ih k (fun x hx => hc x (List.mem_cons_of_mem _ hx)) (by simpa using hk)
      rw [fgetsLoop, if_neg h1, h2]

/-- A file of one line without newline: `CfRead` runs the body of its loop once. -/
theorem CfRead_line_eof (cf : xcf_entry) {line : CStr} (cmt : Int) (m : Mem)
    (hne : line ≠ []) (hnl : noNewline line) (hlen : line.length ≤ 128) :
    CfRead cf (some line) cmt m = CfReadLine cf (line ++ ['\n']) cmt m := by
  have hf : fgets XCF_BF_SIZE line = some (line, []) := by
    have := fgetsLoop_eof line (XCF_BF_SIZE - 1) hnl (by simp only [XCF_BF_SIZE]; omega)
    cases line with
    | nil => exact absurd rfl hne
    | cons c cs => simp only [fgets, this]
  rw [CfRead_loop, hf, ← CfReadLine_eof cf cmt m hnl hlen]
  simp only []
  split
  · rfl
  · rename_i h
    rw [CfRead_nil]
    have h0 : (CfReadLine cf line cmt m).1 = 0 := by simpa using h
    rw [← h0]

/-! ## C11: a key / value line -/

theorem not_isKeyChar_of_isBlank {c : Char} (h : isBlank c = true) : isKeyChar c = false := by
  cases hk : isKeyChar c with
  | false => rfl
  | true => rw [not_isBlank_of_isKeyChar hk] at h; exact absurd h (by decide)

theorem xCfLfSpaces_blank_value {w v : CStr} (hw : ∀ x ∈ w, isBlank x = true)
    (hl : noBlankEnds v = true) : xCfLfSpaces (w ++ v) = v := by
  rw [xCfLfSpaces_append_blank v hw, xCfLfSpaces_noBlankEnds hl]

/-- The key / value part of the body of the loop of `CfRead`, on a key name,
an `=` with spaces and tabs around it, and a value: `CfSetKey` of the two. -/
theorem CfReadPair_spaced (cf : xcf_entry) {k v w2 w3 : CStr} (m : Mem)
    (hk : validKeyName k = true) (hv : v ≠ []) (hl : noBlankEnds v = true)
    (hw2 : ∀ x ∈ w2, isBlank x = true) (hw3 : ∀ x ∈ w3, isBlank x = true) :
    CfReadPair cf (k ++ (w2 ++ '=' :: (w3 ++ v))) m = CfSetKey cf k v m := by
  have hkc : ∀ x ∈ k, isKeyChar x = true := by
    simp only [validKeyName, Bool.and_eq_true, List.all_eq_true] at hk
    exact hk.2
  have hkne : k ≠ [] := by
    rintro rfl
    simp [validKeyName] at hk
  have hval : xCfLfSpaces (w3 ++ v) = v := xCfLfSpaces_blank_value hw3 hl
  cases v with
  | nil => exact absurd rfl hv
  | cons v0 vt =>
    cases w2 with
    | nil =>
      have tw : List.takeWhile isKeyChar (k ++ ([] ++ '=' :: (w3 ++ v0 :: vt))) = k := by
        rw [List.takeWhile_append_of_pos hkc]
        simp [List.takeWhile_cons, show isKeyChar '=' = false by decide]
      have dw : List.dropWhile isKeyChar (k ++ ([] ++ '=' :: (w3 ++ v0 :: vt))) =
          '=' :: (w3 ++ v0 :: vt) := by
        rw [List.dropWhile_append_of_pos hkc]
        simp [List.dropWhile_cons, show isKeyChar '=' = false by decide]
      unfold CfReadPair
      simp only [tw, dw]
      simp only [hkne, hval, ne_eq, not_true_eq_false, and_false, or_false, if_false]
      exact CfSetKey_err cf k (v0 :: vt) m
    | cons b w2t =>
      have hb : isBlank b = true := hw2 b (List.mem_cons_self _ _)
      have hw2t : ∀ x ∈ w2t, isBlank x = true := fun x hx => hw2 x (List.mem_cons_of_mem _ hx)
      have hbk : isKeyChar b = false := not_isKeyChar_of_isBlank hb
      have hbe : b ≠ '=' := by
        rintro rfl
        exact absurd hb (by decide)
      have hbb : ¬ (b ≠ ' ' ∧ b ≠ '\t' ∧ b ≠ '=') := by
        rcases isBlank_eq_true hb with e | e <;> subst e <;> decide
      have tw : List.takeWhile isKeyChar (k ++ (b :: w2t ++ '=' :: (w3 ++ v0 :: vt))) = k := by
        rw [List.takeWhile_append_of_pos hkc]
        simp [List.takeWhile_cons, hbk]
      have dw : List.dropWhile isKeyChar (k ++ (b :: w2t ++ '=' :: (w3 ++ v0 :: vt))) =
          b :: (w2t ++ '=' :: (w3 ++ v0 :: vt)) := by
        rw [List.dropWhile_append_of_pos hkc]
        simp [List.dropWhile_cons, hbk]
      have l1 : xCfLfSpaces (w2t ++ '=' :: (w3 ++ v0 :: vt)) = '=' :: (w3 ++ v0 :: vt) := by
        rw [xCfLfSpaces_append_blank _ hw2t]
        simp [xCfLfSpaces, List.dropWhile_cons, show isBlank '=' = false by decide]
      unfold CfReadPair
      simp only [tw, dw]
      simp only [hkne, hbe, l1, hval, ne_eq, not_true_eq_false, not_false_eq_true,
        if_false, if_true]
      split
      · rename_i h
        exact absurd (show b ≠ ' ' ∧ b ≠ '\t' ∧ b ≠ '=' by tauto) hbb
      · exact CfSetKey_err cf k (v0 :: vt) m

theorem noNewline_of_blank {w : CStr} (hw : ∀ x ∈ w, isBlank x = true) : noNewline w := by
  intro c hc e
  subst e
  exact absurd (hw _ hc) (by decide)

theorem noNewline_of_keyChars {k : CStr} (hk : ∀ x ∈ k, isKeyChar x = true) : noNewline k := by
  intro c hc e
  subst e
  exact absurd (hk _ hc) (by decide)

theorem noNewline_append {a b : CStr} (ha : noNewline a) (hb : noNewline b) :
    noNewline (a ++ b) := by
  intro c hc
  rcases List.mem_append.mp hc with h | h
  · exact ha c h
  · exact hb c h

/-- The body of the loop of `CfRead` on a key / value line with spaces and
tabs at its ends and around the `=`: `CfSetKey` of the key and the value. -/
theorem CfReadLine_spaced (cf : xcf_entry) {k v w1 w2 w3 w4 : CStr} (cmt : Int) (m : Mem)
    (hk : validKeyName k = true) (hv : v ≠ []) (hl : noBlankEnds v = true)
    (hw1 : ∀ x ∈ w1, isBlank x = true) (hw2 : ∀ x ∈ w2, isBlank x = true)
    (hw3 : ∀ x ∈ w3, isBlank x = true) (hw4 : ∀ x ∈ w4, isBlank x = true) :
    CfReadLine cf ((w1 ++ k ++ w2 ++ ['='] ++ w3 ++ v ++ w4) ++ ['\n']) cmt m =
      CfSetKey cf k v m := by
  have hreg := isRegularKey_of_validKeyName hk
  have hshape : w1 ++ k ++ w2 ++ ['='] ++ w3 ++ v ++ w4 =
      w1 ++ ((k ++ (w2 ++ '=' :: w3) ++ v) ++ w4) := by
    simp
  have hshape2 : k ++ (w2 ++ '=' :: w3) ++ v = k ++ (w2 ++ '=' :: (w3 ++ v)) := by
    simp
  rw [CfReadLine_newline, hshape, xCfLfSpaces_append_blank _ hw1]
  cases k with
  | nil => simp [validKeyName] at hk
  | cons c cs =>
    have hc : isKeyChar c = true := by
      simp only [validKeyName, List.all_cons, Bool.and_eq_true] at hk
      exact hk.2.1
    have lf : xCfLfSpaces (((c :: cs) ++ (w2 ++ '=' :: w3) ++ v) ++ w4) =
        ((c :: cs) ++ (w2 ++ '=' :: w3) ++ v) ++ w4 := by
      unfold xCfLfSpaces
      simp only [List.cons_append]
      rw [List.dropWhile_cons_of_neg]
      rw [not_isBlank_of_isKeyChar hc]
      simp
    rw [lf, xCfRtSpaces_append_blank _ hw4, xCfRtSpaces_append _ hv hl]
    simp only [isRegularKey] at hreg
    have hc1 : ¬ (c = '#' ∨ c = ';') := by
      simp only [Bool.and_eq_true, bne_iff_ne, ne_eq] at hreg
      tauto
    have := CfReadPair_spaced cf m hk hv hl hw2 hw3
    rw [← hshape2] at this
    simp only [List.cons_append] at this ⊢
    rw [if_neg hc1]
    exact this

/-- C11: parsing a key / value line. For every valid key name `k`, every
non-empty value `v` without newline that neither starts nor ends with a space
or tab, and all strings `w1`, `w2`, `w3`, `w4` of spaces and tabs such that the
line `w1 k w2 = w3 v w4` has at most 128 characters, `CfRead` of that line
(ended by a newline, or not) has exactly the effect and the result of
`CfSetKey(store, k, v)`. -/
theorem C11_read_pair_line (cf : xcf_entry) (k v w1 w2 w3 w4 : CStr) (cmt : Int) (m : Mem)
    (hk : validKeyName k = true) (hv : v ≠ []) (hlv : lineValue v = true)
    (hw1 : ∀ x ∈ w1, isBlank x = true) (hw2 : ∀ x ∈ w2, isBlank x = true)
    (hw3 : ∀ x ∈ w3, isBlank x = true) (hw4 : ∀ x ∈ w4, isBlank x = true)
    (hlen : (w1 ++ k ++ w2 ++ ['='] ++ w3 ++ v ++ w4).length ≤ 128) :
    CfRead cf (some ((w1 ++ k ++ w2 ++ ['='] ++ w3 ++ v ++ w4) ++ ['\n'])) cmt m =
        CfSetKey cf k v m ∧
      CfRead cf (some (w1 ++ k ++ w2 ++ ['='] ++ w3 ++ v ++ w4)) cmt m =
        CfSetKey cf k v m := by
  simp only [lineValue, Bool.and_eq_true, List.all_eq_true, bne_iff_ne, ne_eq] at hlv
  obtain ⟨hl, hvn⟩ := hlv
  have hkc : ∀ x ∈ k, isKeyChar x = true := by
    have := hk
    simp only [validKeyName, Bool.and_eq_true, List.all_eq_true] at this
    exact this.2
  have hnl : noNewline (w1 ++ k ++ w2 ++ ['='] ++ w3 ++ v ++ w4) := by
    refine noNewline_append (noNewline_append (noNewline_append (noNewline_append
      (noNewline_append (noNewline_append (noNewline_of_blank hw1) (noNewline_of_keyChars hkc))
      (noNewline_of_blank hw2)) ?_) (noNewline_of_blank hw3)) hvn) (noNewline_of_blank hw4)
    intro c hc
    rw [List.mem_singleton] at hc
    subst hc
    decide
  have hne : w1 ++ k ++ w2 ++ ['='] ++ w3 ++ v ++ w4 ≠ [] := by
    intro h
    have := congrArg List.length h
    simp only [List.length_append, List.length_cons, List.length_nil] at this
    omega
  constructor
  · rw [CfRead_line cf cmt m hnl hlen]
    exact CfReadLine_spaced cf cmt m hk hv hl hw1 hw2 hw3 hw4
  · rw [CfRead_line_eof cf cmt m hne hnl hlen]
    exact CfReadLine_spaced cf cmt m hk hv hl hw1 hw2 hw3 hw4

/-- C11 on the line `  year<tab>=  1969 ` read into a store of two slots. -/
theorem C11_read_pair_line_witness :
    CfRead ⟨[some "title".toList, none], [some "x".toList, none], 2⟩
        (some (("  ".toList ++ "year".toList ++ "\t".toList ++ ['='] ++ "  ".toList ++
          "1969".toList ++ " ".toList) ++ ['\n'])) 0 [] =
        CfSetKey ⟨[some "title".toList, none], [some "x".toList, none], 2⟩
          "year".toList "1969".toList [] ∧
      CfRead ⟨[some "title".toList, none], [some "x".toList, none], 2⟩
        (some ("  ".toList ++ "year".toList ++ "\t".toList ++ ['='] ++ "  ".toList ++
          "1969".toList ++ " ".toList)) 0 [] =
        CfSetKey ⟨[some "title".toList, none], [some "x".toList, none], 2⟩
          "year".toList "1969".toList [] :=
  C11_read_pair_line ⟨[some "title".toList, none], [some "x".toList, none], 2⟩
    "year".toList "1969".toList "  ".toList "\t".toList "  ".toList " ".toList 0 []
    (by decide) (by decide) (by decide) (by decide) (by decide) (by decide) (by decide)
    (by decide)

/-! ## C12: a malformed line -/

/-- A malformed line breaks the loop of `CfRead` and leaves the store as it is. -/
theorem CfReadPair_malformed (cf : xcf_entry) {t : CStr} (m : Mem)
    (h : malformedLine t = true) : CfReadPair cf t m = (-1, cf, m) := by
  unfold CfReadPair
  unfold malformedLine at h
  generalize List.takeWhile isKeyChar t = key at h ⊢
  generalize List.dropWhile isKeyChar t = rest at h ⊢
  cases rest with
  | nil => rfl
  | cons k bf2 =>
    simp only []
    by_cases h1 : key = [] ∨ (k ≠ ' ' ∧ k ≠ '\t' ∧ k ≠ '=')
    · rw [if_pos h1]
    · rw [if_neg h1]
      have hk : key ≠ [] := fun e => h1 (Or.inl e)
      have hkk : k = ' ' ∨ k = '\t' ∨ k = '=' := by
        by_contra hc
        apply h1
        right
        refine ⟨fun e => hc (Or.inl e), fun e => hc (Or.inr (Or.inl e)),
          fun e => hc (Or.inr (Or.inr e))⟩
      simp only [Bool.or_eq_true, beq_iff_eq, hk, false_or, Bool.and_eq_true, bne_iff_ne,
        ne_eq] at h
      have h2 : ¬ (¬ k = ' ' ∧ ¬ k = '\t') ∨ k = '=' := by tauto
      by_cases he : k = '='
      · subst he
        have hlf : xCfLfSpaces ('=' :: bf2) = '=' :: bf2 := by
          simp [xCfLfSpaces, List.dropWhile_cons, show isBlank '=' = false by decide]
        rw [hlf] at h
        simp only [List.head?_cons, not_true_eq_false, List.tail_cons, or_false] at h
        have h3 : xCfLfSpaces bf2 = [] := by
          rcases h with h | h
          · exact absurd h (by decide)
          · exact h
        simp only [ne_eq, not_true_eq_false, if_false, h3]
      · have hb : isBlank k = true := by
          rcases hkk with e | e | e
          · subst e; decide
          · subst e; decide
          · exact absurd e he
        have hlf : xCfLfSpaces (k :: bf2) = xCfLfSpaces bf2 := by
          unfold xCfLfSpaces
          rw [List.dropWhile_cons_of_pos hb]
        rw [hlf] at h
        simp only [ne_eq, he, not_false_eq_true, if_true]
        cases hx : xCfLfSpaces bf2 with
        | nil => rfl
        | cons e bf3 =>
          rw [hx] at h
          simp only [List.head?_cons, Option.some.injEq, List.tail_cons] at h
          by_cases hee : e = '='
          · simp only [hee, not_true_eq_false, if_false]
            have h3 : xCfLfSpaces bf3 = [] := by
              rcases h with (h | h) | h
              · rcases hkk with e1 | e1 | e1
                · exact absurd e1 h.1.1
                · exact absurd e1 h.1.2
                · exact absurd e1 he
              · exact absurd hee h
              · exact h
            rw [h3]
          · simp only [hee, not_false_eq_true, if_true]

theorem fgetsLoop_long :
    ∀ (k : Nat) (l rest : List Char), (∀ c ∈ l, c ≠ '\n') → k ≤ l.length →
      fgetsLoop k (l ++ rest) = (l.take k, l.drop k ++ rest) := by
  intro k
  induction k with
  | zero => intro l rest _ _; simp [fgetsLoop]
  | succ k ih =>
    intro l rest hc hk
    cases l with
    | nil => simp at hk
    | cons c cs =>
      have h1 : c ≠ '\n' := hc c (List.mem_cons_self _ _)
      have h2 := ih cs rest (fun x hx => hc x (List.mem_cons_of_mem _ hx)) (by simpa using hk)
      rw [List.cons_append, fgetsLoop, if_neg h1, h2]
      rfl

/-- With the buffer of `XCF_BF_SIZE` bytes, `fgets` reads the first 129
characters of a line that has more than 128. -/
theorem fgets_long {l : List Char} (rest : List Char) (hc : noNewline l)
    (hlen : 128 < l.length) :
    fgets XCF_BF_SIZE (l ++ rest) = some (l.take 129, l.drop 129 ++ rest) := by
  have := fgetsLoop_long (XCF_BF_SIZE - 1) l rest hc (by simp only [XCF_BF_SIZE]; omega)
  cases l with
  | nil => simp at hlen
  | cons c cs =>
    simp only [List.cons_append] at this ⊢
    simp only [fgets, this]
    rfl

theorem lineTooLong_take {l : List Char} (hc : noNewline l) (hlen : 128 < l.length) :
    lineTooLong (l.take 129) = true := by
  have hlast : (l.take 129).getLast? ≠ some '\n' := by
    intro h
    exact hc _ (List.mem_of_mem_take (List.mem_of_getLast?_eq_some h)) rfl
  simp only [lineTooLong, Bool.and_eq_true, bne_iff_ne, ne_eq, hlast, not_false_eq_true,
    beq_iff_eq, List.length_take, XCF_BF_SIZE, true_and]
  omega

/-- The too-long test of `CfRead` breaks the loop and leaves the store as it is. -/
theorem CfReadLine_tooLong (cf : xcf_entry) {buf : CStr} (cmt : Int) (m : Mem)
    (h : lineTooLong buf = true) : CfReadLine cf buf cmt m = (-1, cf, m) := by
  simp only [lineTooLong, Bool.and_eq_true, bne_iff_ne, ne_eq, beq_iff_eq] at h
  unfold CfReadLine
  rw [if_pos ⟨h.1, h.2⟩]

/-- `CfRead` of a file that starts with a line of more than 128 characters
returns `-1` and leaves the store as it is. -/
theorem CfRead_long (cf : xcf_entry) {l : List Char} (rest : List Char) (cmt : Int) (m : Mem)
    (hc : noNewline l) (hlen : 128 < l.length) :
    CfRead cf (some (l ++ rest)) cmt m = (-1, cf, m) := by
  rw [CfRead_loop, fgets_long rest hc hlen]
  simp only [CfReadLine_tooLong cf cmt m (lineTooLong_take hc hlen)]
  rfl

theorem unlines_cons (l : CStr) (ls : List CStr) :
    unlines (l :: ls) = l ++ '\n' :: unlines ls := by
  simp [unlines]

theorem unlines_append (a b : List CStr) : unlines (a ++ b) = unlines a ++ unlines b := by
  simp [unlines]

/-- `CfRead` of a file that starts with a line of at most 128 characters: the
body of the loop on that line, then the rest of the file unless it broke. -/
theorem CfRead_cons (cf : xcf_entry) {l : CStr} (rest : List Char) (cmt : Int) (m : Mem)
    (hnl : noNewline l) (hlen : l.length ≤ 128) :
    CfRead cf (some (l ++ '\n' :: rest)) cmt m =
      if (CfReadLine cf (l ++ ['\n']) cmt m).1 ≠ 0 then CfReadLine cf (l ++ ['\n']) cmt m
      else CfRead (CfReadLine cf (l ++ ['\n']) cmt m).2.1 (some rest) cmt
        (CfReadLine cf (l ++ ['\n']) cmt m).2.2 := by
  rw [CfRead_loop, fgets_line rest hnl hlen]

/-- What `CfRead` does with a file that continues after lines it read successfully. -/
theorem CfRead_unlines_append (cmt : Int) (B : List Char) :
    ∀ (P : List CStr) (cf : xcf_entry) (m : Mem), (∀ l ∈ P, noNewline l) →
      (CfRead cf (some (unlines P)) cmt m).1 = 0 →
      CfRead cf (some (unlines P ++ B)) cmt m =
        CfRead (CfRead cf (some (unlines P)) cmt m).2.1 (some B) cmt
          (CfRead cf (some (unlines P)) cmt m).2.2 := by
  intro P
  induction P with
  | nil =>
    intro cf m _ _
    simp only [unlines, List.flatMap_nil, List.nil_append, CfRead_nil]
  | cons l P ih =>
    intro cf m hP hok
    have hl : noNewline l := hP l (List.mem_cons_self _ _)
    have hP2 : ∀ x ∈ P, noNewline x := fun x hx => hP x (List.mem_cons_of_mem _ hx)
    rw [unlines_cons] at hok ⊢
    by_cases hlen : l.length ≤ 128
    · rw [List.append_assoc, List.cons_append, CfRead_cons cf _ cmt m hl hlen]
      rw [CfRead_cons cf _ cmt m hl hlen] at hok ⊢
      by_cases herr : (CfReadLine cf (l ++ ['\n']) cmt m).1 ≠ 0
      · rw [if_pos herr] at hok
        exact absurd hok herr
      · rw [if_neg herr] at hok ⊢
        rw [if_neg herr]
        exact ih _ _ hP2 hok
    · have := CfRead_long cf ('\n' :: unlines P) cmt m hl (by omega)
      rw [this] at hok
      simp at hok

/-- C12: a malformed line aborts the read and keeps the parsed prefix. For all
lines `P` that `CfRead` reads successfully, every line `ml` that after
trimming is non-empty, is not a comment and is malformed, and all following
lines `S`, `CfRead` of `P`, `ml`, `S` returns `-1` and leaves the store (and
the memory) exactly as `CfRead` of `P` alone leaves it. -/
theorem C12_malformed_line (cf : xcf_entry) (P : List CStr) (ml : CStr) (S : List CStr)
    (cmt : Int) (m : Mem) (hP : ∀ l ∈ P, noNewline l)
    (hok : (CfRead cf (some (unlines P)) cmt m).1 = 0) (hnl : noNewline ml)
    (hblank : isBlankLine ml = false) (hcomment : isCommentLine ml = false)
    (hmal : malformedLine (trim ml) = true) :
    CfRead cf (some (unlines (P ++ [ml] ++ S))) cmt m =
      (-1, (CfRead cf (some (unlines P)) cmt m).2.1,
        (CfRead cf (some (unlines P)) cmt m).2.2) := by
  rw [List.append_assoc, unlines_append, CfRead_unlines_append cmt _ P cf m hP hok,
    List.singleton_append, unlines_cons]
  by_cases hlen : ml.length ≤ 128
  · rw [CfRead_cons _ _ cmt _ hnl hlen, CfReadLine_newline]
    cases ht : xCfRtSpaces (xCfLfSpaces ml) with
    | nil =>
      simp [isBlankLine, trim, ht] at hblank
    | cons c t =>
      have hc : ¬ (c = '#' ∨ c = ';') := by
        simpa [isCommentLine, trim, ht] using hcomment
      simp only [if_neg hc]
      rw [trim, ht] at hmal
      rw [CfReadPair_malformed _ _ hmal]
      rfl
  · exact CfRead_long _ _ cmt _ hnl (by omega)

/-- C12 on the file of the lines `a = 1`, `foo`, `b = 2`: the read stops at
`foo` with the entry `a` stored. -/
theorem C12_malformed_line_witness :
    CfRead ⟨[none, none], [none, none], 2⟩
        (some (unlines (["a = 1".toList] ++ ["foo".toList] ++ ["b = 2".toList]))) 0 [] =
      (-1, (CfRead ⟨[none, none], [none, none], 2⟩
          (some (unlines ["a = 1".toList])) 0 []).2.1,
        (CfRead ⟨[none, none], [none, none], 2⟩
          (some (unlines ["a = 1".toList])) 0 []).2.2) :=
  C12_malformed_line ⟨[none, none], [none, none], 2⟩ ["a = 1".toList] "foo".toList
    ["b = 2".toList] 0 [] (by decide) (by decide) (by decide) (by decide) (by decide)
    (by decide)

/-! ## C13: comments and empty lines without comment preservation -/

/-- Without comment preservation the body of the loop of `CfRead` does nothing
on a line that after trimming is empty or starts with `#` or `;`. -/
theorem CfReadLine_skip (cf : xcf_entry) {l : CStr} (m : Mem)
    (h : (isBlankLine l || isCommentLine l) = true) :
    CfReadLine cf (l ++ ['\n']) 0 m = (0, cf, m) := by
  rw [CfReadLine_newline]
  cases ht : xCfRtSpaces (xCfLfSpaces l) with
  | nil => simp [CfReadComment]
  | cons c t =>
    have hc : c = '#' ∨ c = ';' := by
      simpa [isBlankLine, isCommentLine, trim, ht] using h
    simp only [if_pos hc]
    simp [CfReadComment]

/-- C13: comments are ignored when comment preservation is off. For every list
of lines of at most 128 characters, `CfRead` with `cmt = 0` returns the same
result and produces the same store as `CfRead` with `cmt = 0` of the list
without the lines that after trimming are empty or start with `#` or `;`. -/
theorem C13_comments_skipped (ls : List CStr) :
    ∀ (cf : xcf_entry) (m : Mem), (∀ l ∈ ls, noNewline l ∧ l.length ≤ 128) →
      CfRead cf (some (unlines ls)) 0 m =
        CfRead cf (some (unlines (ls.filter
          (fun l => !(isBlankLine l || isCommentLine l))))) 0 m := by
  induction ls with
  | nil => intro cf m _; rfl
  | cons l ls ih =>
    intro cf m h
    obtain ⟨hnl, hlen⟩ := h l (List.mem_cons_self _ _)
    have h2 : ∀ x ∈ ls, noNewline x ∧ x.length ≤ 128 :=
      fun x hx => h x (List.mem_cons_of_mem _ hx)
    rw [unlines_cons, CfRead_cons cf _ 0 m hnl hlen]
    cases hs : (isBlankLine l || isCommentLine l) with
    | true =>
      rw [List.filter_cons_of_neg (by simp [hs]), CfReadLine_skip cf m hs]
      simp only [ne_eq, not_true_eq_false, if_false]
      exact ih cf m h2
    | false =>
      rw [List.filter_cons_of_pos (by simp [hs]), unlines_cons, CfRead_cons cf _ 0 m hnl hlen]
      split
      · rfl
      · exact ih _ _ h2

/-- C13 on a file with a comment, an empty line and two key / value lines. -/
theorem C13_comments_skipped_witness :
    CfRead ⟨[none, none], [none, none], 2⟩
        (some (unlines ["# note".toList, "a = 1".toList, "  ".toList, "b = 2".toList])) 0 [] =
      CfRead ⟨[none, none], [none, none], 2⟩
        (some (unlines (["# note".toList, "a = 1".toList, "  ".toList, "b = 2".toList].filter
          (fun l => !(isBlankLine l || isCommentLine l))))) 0 [] :=
  C13_comments_skipped ["# note".toList, "a = 1".toList, "  ".toList, "b = 2".toList]
    ⟨[none, none], [none, none], 2⟩ [] (by decide)

/-! ## C14: comments and empty lines with comment preservation -/

theorem xCfRtSpaces_cons (a : Char) (l : CStr) :
    xCfRtSpaces (a :: l) =
      if xCfRtSpaces l = [] then (if isBlank a then [] else [a]) else a :: xCfRtSpaces l := by
  unfold xCfRtSpaces List.rdropWhile
  rw [List.reverse_cons, List.dropWhile_append]
  by_cases h : List.dropWhile isBlank l.reverse = []
  · simp only [h, List.isEmpty_nil, if_true, List.reverse_nil]
    cases hb : isBlank a <;> simp [List.dropWhile_cons, hb]
  · have h2 : (List.dropWhile isBlank l.reverse).isEmpty = false := by
      cases hd : List.dropWhile isBlank l.reverse with
      | nil => exact absurd hd h
      | cons _ _ => rfl
    simp [h, h2]

theorem xCfRtSpaces_cons_of_neg {a : Char} (l : CStr) (ha : isBlank a = false) :
    xCfRtSpaces (a :: l) = a :: xCfRtSpaces l := by
  rw [xCfRtSpaces_cons]
  split
  · rename_i h; simp [ha, h]
  · rfl

/-- Trimming on the left and on the right commute. -/
theorem xCfLfSpaces_xCfRtSpaces (y : CStr) :
    xCfLfSpaces (xCfRtSpaces y) = xCfRtSpaces (xCfLfSpaces y) := by
  induction y with
  | nil => rfl
  | cons a y ih =>
    cases ha : isBlank a with
    | false =>
      have hl : xCfLfSpaces (a :: y) = a :: y := by
        unfold xCfLfSpaces
        rw [List.dropWhile_cons_of_neg (by simp [ha])]
      rw [hl, xCfRtSpaces_cons_of_neg y ha]
      unfold xCfLfSpaces
      rw [List.dropWhile_cons_of_neg (by simp [ha])]
    | true =>
      have hl : xCfLfSpaces (a :: y) = xCfLfSpaces y := by
        unfold xCfLfSpaces
        rw [List.dropWhile_cons_of_pos ha]
      rw [hl, ← ih, xCfRtSpaces_cons]
      by_cases hr : xCfRtSpaces y = []
      · simp [hr, ha, xCfLfSpaces]
      · rw [if_neg hr]
        unfold xCfLfSpaces
        rw [List.dropWhile_cons_of_pos ha]

/-- With comment preservation, the body of the loop of `CfRead` on a line that
is empty after trimming: `CfSetKey` of the empty key and the empty value. -/
theorem CfReadLine_empty (cf : xcf_entry) {line : CStr} {cmt : Int} (m : Mem)
    (hcmt : cmt ≠ 0) (h : trim line = []) :
    CfReadLine cf (line ++ ['\n']) cmt m = CfSetKey cf [] [] m := by
  rw [CfReadLine_newline]
  unfold trim at h
  rw [h]
  simp only [CfReadComment, hcmt, ne_eq, not_false_eq_true, if_true, List.take_nil]
  exact CfSetKey_err cf [] [] m

/-- With comment preservation, the body of the loop of `CfRead` on a line whose
first character after spaces and tabs is a marker `c`: `CfSetKey` of the
marker and the trimmed rest of the line. -/
theorem CfReadLine_marker (cf : xcf_entry) {w y : CStr} {c : Char} {cmt : Int} (m : Mem)
    (hcmt : cmt ≠ 0) (hw : ∀ x ∈ w, isBlank x = true) (hc : c = '#' ∨ c = ';') :
    CfReadLine cf ((w ++ c :: y) ++ ['\n']) cmt m = CfSetKey cf [c] (trim y) m := by
  have hnb : isBlank c = false := by
    rcases hc with e | e <;> subst e <;> decide
  have lf : xCfLfSpaces (w ++ c :: y) = c :: y := by
    rw [xCfLfSpaces_append_blank _ hw]
    unfold xCfLfSpaces
    rw [List.dropWhile_cons_of_neg (by simp [hnb])]
  rw [CfReadLine_newline, lf, xCfRtSpaces_cons_of_neg y hnb]
  simp only [if_pos hc, CfReadComment, hcmt, ne_eq, not_false_eq_true, if_true,
    List.take_succ_cons, List.take_zero, xCfLfSpaces_xCfRtSpaces]
  exact CfSetKey_err cf [c] (trim y) m

/-- C14: comments are kept when comment preservation is on. With `cmt`
non-zero, `CfRead` of a line that after trimming is empty has the effect of
`CfSetKey(store, "", "")`, and `CfRead` of a line that after trimming starts
with a marker `c` (`#` or `;`) has the effect of `CfSetKey(store, c, t)`, `t`
being the rest of the line after the marker, trimmed. Such a call of
`CfSetKey`, when it succeeds, takes the first free slot whatever the store
already holds; in a store whose occupied slots come first it adds the entry
after the others, so these lines are stored in file order. -/
theorem C14_comments_kept (cf : xcf_entry) (line : CStr) (cmt : Int) (m : Mem)
    (hcmt : cmt ≠ 0) (hnl : noNewline line) (hlen : line.length ≤ 128) :
    (trim line = [] → CfRead cf (some (line ++ ['\n'])) cmt m = CfSetKey cf [] [] m) ∧
      (∀ (w y : CStr) (c : Char), (∀ x ∈ w, isBlank x = true) → (c = '#' ∨ c = ';') →
        line = w ++ c :: y →
        CfRead cf (some (line ++ ['\n'])) cmt m = CfSetKey cf [c] (trim y) m) ∧
      (∀ (key value : CStr) (j : Nat), (key = [] ∨ key = ['#'] ∨ key = [';']) →
        j < cf.max.toNat → cf.keys.getD j none = none →
        (∀ t, t < j → cf.keys.getD t none ≠ none) →
        (CfSetKey cf key value m).1 = 0 →
        (CfSetKey cf key value m).2.1 =
          { cf with keys := cf.keys.set j (some key),
                    values := cf.values.set j (some value) }) ∧
      (∀ (M : Int) (es : List (CStr × CStr)) (key value : CStr),
        (key = [] ∨ key = ['#'] ∨ key = [';']) → cf = storeOf M es →
        (CfSetKey cf key value m).1 = 0 →
        (CfSetKey cf key value m).2.1 = storeOf M (es ++ [(key, value)])) := by
  have hpseudo : ∀ key : CStr, (key = [] ∨ key = ['#'] ∨ key = [';']) →
      isRegularKey key = false := by
    intro key h
    rcases h with e | e | e <;> subst e <;> rfl
  refine ⟨?_, ?_, ?_, ?_⟩
  · intro h
    rw [CfRead_line cf cmt m hnl hlen]
    exact CfReadLine_empty cf m hcmt h
  · intro w y c hw hc hline
    rw [CfRead_line cf cmt m hnl hlen, hline]
    exact CfReadLine_marker cf m hcmt hw hc
  · intro key value j hkey hj hfree hfirst hok
    have hl : (if isRegularKey key then xCfFind cf.keys cf.max key else none) = none := by
      rw [hpseudo key hkey]; rfl
    rw [CfSetKey_add value m hl hj hfree hfirst] at hok ⊢
    cases hm : (malloc m).1
    · rw [hm] at hok; simp at hok
    · rw [hm] at hok
      cases hm2 : (malloc (malloc m).2).1
      · rw [hm2] at hok; simp at hok
      · simp
  · intro M es key value hkey hcf hok
    subst hcf
    have hl : (if isRegularKey key then
        xCfFind (storeOf M es).keys (storeOf M es).max key else none) = none := by
      rw [hpseudo key hkey]; rfl
    by_cases hfull : M.toNat ≤ es.length
    · rw [CfSetKey_full value m hl (storeOf_full hfull)] at hok
      simp at hok
    · have hlt : es.length < M.toNat := by omega
      rw [CfSetKey_add value m hl (show es.length < (storeOf M es).max.toNat from hlt)
        storeOf_first_free.1 storeOf_first_free.2] at hok ⊢
      cases hm : (malloc m).1
      · rw [hm] at hok; simp at hok
      · rw [hm] at hok
        cases hm2 : (malloc (malloc m).2).1
        · rw [hm2] at hok; simp at hok
        · simp only [if_true]
          exact storeOf_push key value hlt

/-- C14 on a store that already holds the comment `# note`: an empty line and
the same comment again each take a new slot. -/
theorem C14_comments_kept_witness :
    CfRead (storeOf 3 [("#".toList, "note".toList)]) (some ("  ".toList ++ ['\n'])) 1 [] =
        CfSetKey (storeOf 3 [("#".toList, "note".toList)]) [] [] [] ∧
      CfRead (storeOf 3 [("#".toList, "note".toList)])
        (some (" # note ".toList ++ ['\n'])) 1 [] =
        CfSetKey (storeOf 3 [("#".toList, "note".toList)]) ['#'] (trim " note ".toList) [] ∧
      (CfSetKey (storeOf 3 [("#".toList, "note".toList)]) ['#'] "note".toList []).2.1 =
        { storeOf 3 [("#".toList, "note".toList)] with
          keys := (storeOf 3 [("#".toList, "note".toList)]).keys.set 1 (some ['#']),
          values := (storeOf 3 [("#".toList, "note".toList)]).values.set 1
            (some "note".toList) } ∧
      (CfSetKey (storeOf 3 [("#".toList, "note".toList)]) ['#'] "note".toList []).2.1 =
        storeOf 3 ([("#".toList, "note".toList)] ++ [(['#'], "note".toList)]) :=
  ⟨(C14_comments_kept (storeOf 3 [("#".toList, "note".toList)]) "  ".toList 1 []
      (by decide) (by decide) (by decide)).1 (by decide),
    (C14_comments_kept (storeOf 3 [("#".toList, "note".toList)]) " # note ".toList 1 []
      (by decide) (by decide) (by decide)).2.1 " ".toList " note ".toList '#'
      (by decide) (by decide) (by decide),
    (C14_comments_kept (storeOf 3 [("#".toList, "note".toList)]) [] 1 []
      (by decide) (by decide) (by decide)).2.2.1 ['#'] "note".toList 1 (by decide)
      (by decide) (by decide) (by decide) (by decide),
    (C14_comments_kept (storeOf 3 [("#".toList, "note".toList)]) [] 1 []
      (by decide) (by decide) (by decide)).2.2.2 3 [("#".toList, "note".toList)]
      ['#'] "note".toList (by decide) rfl (by decide)⟩

/-! ## C15: the line length limit -/

theorem lineTooLong_newline (l : CStr) : lineTooLong (l ++ ['\n']) = false := by
  simp [lineTooLong]

theorem lineTooLong_short {l : CStr} (hlen : l.length ≤ 128) : lineTooLong l = false := by
  simp only [lineTooLong, Bool.and_eq_false_imp, bne_iff_ne, ne_eq, beq_eq_false_iff_ne,
    XCF_BF_SIZE]
  intro _
  omega

theorem fgets_eof {line : CStr} (hne : line ≠ []) (hnl : noNewline line)
    (hlen : line.length ≤ 128) : fgets XCF_BF_SIZE line = some (line, []) := by
  have := fgetsLoop_eof line (XCF_BF_SIZE - 1) hnl (by simp only [XCF_BF_SIZE]; omega)
  cases line with
  | nil => exact absurd rfl hne
  | cons c cs => simp only [fgets, this]

/-- The strings `fgets` reads from a file of lines of at most 128 characters,
the last one ended by a newline or not: the lines. -/
theorem fgetsAll_lines (last : CStr) (hnl : noNewline last) (hlen : last.length ≤ 128) :
    ∀ (ls : List CStr) (fuel : Nat), (∀ l ∈ ls, noNewline l ∧ l.length ≤ 128) →
      (unlines ls ++ last).length < fuel →
      fgetsAll fuel (unlines ls ++ last) =
        ls.map (fun l => l ++ ['\n']) ++ (if last = [] then [] else [last]) := by
  intro ls
  induction ls with
  | nil =>
    intro fuel _ hfuel
    cases fuel with
    | zero => simp at hfuel
    | succ f =>
      simp only [unlines, List.flatMap_nil, List.nil_append, List.map_nil]
      by_cases hl : last = []
      · subst hl
        simp [fgetsAll, fgets]
      · rw [if_neg hl, fgetsAll, fgets_eof hl hnl hlen]
        cases f with
        | zero => rfl
        | succ f => simp [fgetsAll, fgets]
  | cons l ls ih =>
    intro fuel h hfuel
    obtain ⟨h1, h2⟩ := h l (List.mem_cons_self _ _)
    rw [unlines_cons, List.append_assoc, List.cons_append] at hfuel ⊢
    cases fuel with
    | zero => simp at hfuel
    | succ f =>
      rw [fgetsAll, fgets_line _ h1 h2]
      simp only [List.map_cons, List.cons_append]
      rw [ih f (fun x hx => h x (List.mem_cons_of_mem _ hx))
        (by simp only [List.length_append, List.length_cons] at hfuel ⊢; omega)]

/-- C15: the line length limit is exactly 128 data characters. After lines of
at most 128 characters that `CfRead` reads successfully, a line with more
than 128 characters before its newline, or before the end of the file, makes
`fgets` read a string that fails the too-long test, and `CfRead` returns `-1`
there; and in a file whose lines all have at most 128 characters, the last
one ended by a newline or not, `fgets` reads whole lines and none of the
strings it reads fails the too-long test. -/
theorem C15_line_length_limit (cf : xcf_entry) (cmt : Int) (m : Mem) :
    (∀ (P : List CStr) (l : CStr) (rest : List Char),
        (∀ p ∈ P, noNewline p ∧ p.length ≤ 128) →
        (CfRead cf (some (unlines P)) cmt m).1 = 0 → noNewline l → 128 < l.length →
        (∃ buf fp1, fgets XCF_BF_SIZE (l ++ '\n' :: rest) = some (buf, fp1) ∧
          lineTooLong buf = true) ∧
        (∃ buf fp1, fgets XCF_BF_SIZE l = some (buf, fp1) ∧ lineTooLong buf = true) ∧
        CfRead cf (some (unlines P ++ (l ++ '\n' :: rest))) cmt m =
          (-1, (CfRead cf (some (unlines P)) cmt m).2.1,
            (CfRead cf (some (unlines P)) cmt m).2.2) ∧
        CfRead cf (some (unlines P ++ l)) cmt m =
          (-1, (CfRead cf (some (unlines P)) cmt m).2.1,
            (CfRead cf (some (unlines P)) cmt m).2.2)) ∧
      (∀ (ls : List CStr) (last : CStr), (∀ l ∈ ls, noNewline l ∧ l.length ≤ 128) →
        noNewline last → last.length ≤ 128 →
        fgetsAll ((unlines ls ++ last).length + 1) (unlines ls ++ last) =
          ls.map (fun l => l ++ ['\n']) ++ (if last = [] then [] else [last]) ∧
        ∀ buf ∈ fgetsAll ((unlines ls ++ last).length + 1) (unlines ls ++ last),
          lineTooLong buf = false) := by
  constructor
  · intro P l rest hP hok hnl hlen
    have hP2 : ∀ p ∈ P, noNewline p := fun p hp => (hP p hp).1
    refine ⟨⟨_, _, fgets_long _ hnl hlen, lineTooLong_take hnl hlen⟩, ?_, ?_, ?_⟩
    · have := fgets_long [] hnl hlen
      rw [List.append_nil] at this
      exact ⟨_, _, this, lineTooLong_take hnl hlen⟩
    · rw [CfRead_unlines_append cmt _ P cf m hP2 hok]
      exact CfRead_long _ _ cmt _ hnl hlen
    · rw [CfRead_unlines_append cmt _ P cf m hP2 hok]
      have := CfRead_long (CfRead cf (some (unlines P)) cmt m).2.1 [] cmt
        (CfRead cf (some (unlines P)) cmt m).2.2 hnl hlen
      rw [List.append_nil] at this
      exact this
  · intro ls last hls hnl hlen
    have hall := fgetsAll_lines last hnl hlen ls _ hls (Nat.lt_succ_self _)
    refine ⟨hall, ?_⟩
    rw [hall]
    intro buf hbuf
    rcases List.mem_append.mp hbuf with h | h
    · obtain ⟨l, -, rfl⟩ := List.mem_map.mp h
      exact lineTooLong_newline l
    · by_cases hl : last = []
      · rw [if_pos hl] at h; simp at h
      · rw [if_neg hl, List.mem_singleton] at h
        subst h
        exact lineTooLong_short hlen

/-- C15 with a line of 129 characters after the line `a = 1`, and with a file
whose last line has no newline. -/
theorem C15_line_length_limit_witness :
    ((∃ buf fp1, fgets XCF_BF_SIZE (List.replicate 129 'x' ++ '\n' :: "b = 2\n".toList) =
          some (buf, fp1) ∧ lineTooLong buf = true) ∧
        (∃ buf fp1, fgets XCF_BF_SIZE (List.replicate 129 'x') = some (buf, fp1) ∧
          lineTooLong buf = true) ∧
        CfRead ⟨[none, none], [none, none], 2⟩ (some (unlines ["a = 1".toList] ++
            (List.replicate 129 'x' ++ '\n' :: "b = 2\n".toList))) 0 [] =
          (-1, (CfRead ⟨[none, none], [none, none], 2⟩
              (some (unlines ["a = 1".toList])) 0 []).2.1,
            (CfRead ⟨[none, none], [none, none], 2⟩
              (some (unlines ["a = 1".toList])) 0 []).2.2) ∧
        CfRead ⟨[none, none], [none, none], 2⟩ (some (unlines ["a = 1".toList] ++
            List.replicate 129 'x')) 0 [] =
          (-1, (CfRead ⟨[none, none], [none, none], 2⟩
              (some (unlines ["a = 1".toList])) 0 []).2.1,
            (CfRead ⟨[none, none], [none, none], 2⟩
              (some (unlines ["a = 1".toList])) 0 []).2.2)) ∧
      (fgetsAll ((unlines ["a = 1".toList] ++ "b = 2".toList).length + 1)
          (unlines ["a = 1".toList] ++ "b = 2".toList) =
          ["a = 1".toList].map (fun l => l ++ ['\n']) ++
            (if "b = 2".toList = [] then [] else ["b = 2".toList]) ∧
        ∀ buf ∈ fgetsAll ((unlines ["a = 1".toList] ++ "b = 2".toList).length + 1)
            (unlines ["a = 1".toList] ++ "b = 2".toList),
          lineTooLong buf = false) :=
  ⟨(C15_line_length_limit ⟨[none, none], [none, none], 2⟩ 0 []).1 ["a = 1".toList]
      (List.replicate 129 'x') "b = 2\n".toList (by decide) (by decide)
      (by intro c hc; rw [List.eq_of_mem_replicate hc]; decide) (by simp),
    (C15_line_length_limit ⟨[none, none], [none, none], 2⟩ 0 []).2 ["a = 1".toList]
      "b = 2".toList (by decide) (by decide) (by decide)⟩

/-! ## C16: the serialized form -/

theorem CfWriteLoop_zip :
    ∀ (K V : List (Option CStr)) (n : Nat), K.length = n → V.length = n →
      CfWriteLoop K V n 0 = (K.zip V).flatMap (fun kv => CfWriteSlot kv.1 kv.2) := by
  intro K
  induction K with
  | nil =>
    intro V n hK _
    simp only [List.length_nil] at hK
    subst hK
    rfl
  | cons a K ih =>
    intro V n hK hV
    cases V with
    | nil => simp only [List.length_nil, List.length_cons] at hK hV; omega
    | cons b V =>
      cases n with
      | zero => simp at hK
      | succ n =>
        simp only [CfWriteLoop, List.getD_cons_zero, CfWriteLoop_shift, List.zip_cons_cons,
          List.flatMap_cons]
        rw [ih V n (by simpa using hK) (by simpa using hV)]

theorem CfWriteSlot_entryLine (k : CStr) (v : Option CStr) :
    CfWriteSlot (some k) v = entryLine (k, v.getD []) := by
  cases k with
  | nil => rfl
  | cons c cs =>
    simp only [CfWriteSlot, entryLine, beginsWithMarker, reduceCtorEq, if_false]
    cases h1 : (c == '#') <;> cases h2 : (c == ';') <;> simp_all

theorem flatMap_slot_entries :
    ∀ (Z : List (Option CStr × Option CStr)),
      Z.flatMap (fun kv => CfWriteSlot kv.1 kv.2) =
        (Z.filterMap (fun kv => kv.1.map (fun k => (k, kv.2.getD [])))).flatMap entryLine := by
  intro Z
  induction Z with
  | nil => rfl
  | cons z Z ih =>
    obtain ⟨k, v⟩ := z
    cases k with
    | none =>
      simp only [List.flatMap_cons, Option.map_none', List.filterMap_cons_none, ih]
      rfl
    | some k =>
      simp only [List.filterMap_cons, Option.map_some', List.flatMap_cons, ih,
        CfWriteSlot_entryLine]

/-- C16 as stated fails. For the store of one slot made by
`CfSetKey(cf, "#a", "1")`, whose key is non-empty and is neither `#` nor `;`,
`CfWrite` emits the line `#a 1`, not `#a = 1`: the format is chosen by the
first character of the key. -/
theorem C16_counterexample :
    CfSetKey ⟨[none], [none], 1⟩ "#a".toList "1".toList [] =
        (0, ⟨[some "#a".toList], [some "1".toList], 1⟩, []) ∧
      "#a".toList ≠ [] ∧ "#a".toList ≠ "#".toList ∧ "#a".toList ≠ ";".toList ∧
      CfWrite ⟨[some "#a".toList], [some "1".toList], 1⟩ true true =
        (0, some "#a 1\n".toList) ∧
      CfWriteText ⟨[some "#a".toList], [some "1".toList], 1⟩ ≠
        "#a".toList ++ " = ".toList ++ "1".toList ++ "\n".toList := by
  decide

/-- C16, amended: for every well-formed store in which no slot holds a key
without a value, the text `CfWrite` emits is the concatenation, over the
occupied slots in increasing slot order and nothing for free slots, of a bare
newline when the key is empty, key, space, value and newline when the key
begins with `#` or `;`, and key, ` = `, value and newline for every other key. -/
theorem C16_serialized_form (cf : xcf_entry) (hwf : WellFormed cf)
    (_hval : NoKeyWithoutValue cf) :
    CfWriteText cf = (entries cf).flatMap entryLine ∧
      (CfWrite cf true true).2 = some ((entries cf).flatMap entryLine) := by
  have h : CfWriteText cf = (entries cf).flatMap entryLine := by
    unfold CfWriteText entries
    rw [CfWriteLoop_zip cf.keys cf.values cf.max.toNat hwf.1 hwf.2, flatMap_slot_entries]
  exact ⟨h, by simp [CfWrite, h]⟩

/-- C16, amended, on a store with a comment, a blank entry, a key / value
pair and a free slot. -/
theorem C16_serialized_form_witness :
    CfWriteText ⟨[some "#".toList, some [], some "year".toList, none],
        [some "note".toList, some [], some "1969".toList, none], 4⟩ =
        (entries ⟨[some "#".toList, some [], some "year".toList, none],
          [some "note".toList, some [], some "1969".toList, none], 4⟩).flatMap entryLine ∧
      (CfWrite ⟨[some "#".toList, some [], some "year".toList, none],
        [some "note".toList, some [], some "1969".toList, none], 4⟩ true true).2 =
        some ((entries ⟨[some "#".toList, some [], some "year".toList, none],
          [some "note".toList, some [], some "1969".toList, none], 4⟩).flatMap entryLine) :=
  C16_serialized_form ⟨[some "#".toList, some [], some "year".toList, none],
    [some "note".toList, some [], some "1969".toList, none], 4⟩ (by decide)
    (by
      intro t
      match t with
      | 0 => decide
      | 1 => decide
      | 2 => decide
      | 3 => decide
      | _ + 4 => simp)

/-! ## C17: CfGetStr and the store -/

/-- C17 fails on the code: `CfGetStr` cuts the closing quote off the stored
string (`value[k - 1] = 0`). On a store where the raw value of `s` is `hello`
between quotes, the first `CfGetStr` returns `hello`; afterwards `CfGetKey`
returns the raw value without its closing quote, and a second `CfGetStr`
returns the default. -/
theorem C17_getstr_changes_store :
    CfGetKey ⟨[some "s".toList], [some (dquote :: "hello".toList ++ [dquote])], 1⟩
        "s".toList = some (dquote :: "hello".toList ++ [dquote]) ∧
      (CfGetStr ⟨[some "s".toList], [some (dquote :: "hello".toList ++ [dquote])], 1⟩
        "s".toList "n/a".toList).1 = "hello".toList ∧
      CfGetKey (CfGetStr ⟨[some "s".toList], [some (dquote :: "hello".toList ++ [dquote])], 1⟩
        "s".toList "n/a".toList).2 "s".toList = some (dquote :: "hello".toList) ∧
      (CfGetStr (CfGetStr ⟨[some "s".toList],
        [some (dquote :: "hello".toList ++ [dquote])], 1⟩
        "s".toList "n/a".toList).2 "s".toList "n/a".toList).1 = "n/a".toList := by
  decide

/-! ## C18: no key twice -/

theorem StoreInv_CfSetKey {cf : xcf_entry} (key value : CStr) (m : Mem) (h : StoreInv cf) :
    StoreInv (CfSetKey cf key value m).2.1 := by
  obtain ⟨es, h1, h2, h3⟩ := h
  obtain ⟨es2, a1, a2, a3⟩ := CfSetKey_storeOf cf.max es key value m h2 h3
  rw [← h1] at a1
  have hmax : (CfSetKey cf key value m).2.1.max = cf.max := by rw [a1]; rfl
  exact ⟨es2, by rw [hmax]; exact a1, by rw [hmax]; exact a2, a3⟩

theorem StoreInv_CfReadComment {cf : xcf_entry} (bf : CStr) (cmt : Int) (m : Mem)
    (h : StoreInv cf) : StoreInv (CfReadComment cf bf cmt m).2.1 := by
  unfold CfReadComment
  split
  · exact StoreInv_CfSetKey _ _ m h
  · exact h

theorem StoreInv_CfReadPair {cf : xcf_entry} (bf : CStr) (m : Mem) (h : StoreInv cf) :
    StoreInv (CfReadPair cf bf m).2.1 := by
  unfold CfReadPair
  simp only []
  split
  · exact h
  · split
    · exact h
    · split
      · exact h
      · split
        · exact h
        · exact StoreInv_CfSetKey _ _ m h

theorem StoreInv_CfReadLine {cf : xcf_entry} (buf : CStr) (cmt : Int) (m : Mem)
    (h : StoreInv cf) : StoreInv (CfReadLine cf buf cmt m).2.1 := by
  unfold CfReadLine
  simp only []
  split
  · exact h
  · split
    · exact StoreInv_CfReadComment _ cmt m h
    · split
      · exact StoreInv_CfReadComment _ cmt m h
      · exact StoreInv_CfReadPair _ m h

theorem StoreInv_CfReadLoop (cmt : Int) :
    ∀ (fuel : Nat) (cf : xcf_entry) (fp : List Char) (m : Mem), StoreInv cf →
      StoreInv (CfReadLoop fuel cf fp cmt m).2.1 := by
  intro fuel
  induction fuel with
  | zero => intro cf fp m h; exact h
  | succ f ih =>
    intro cf fp m h
    simp only [CfReadLoop]
    cases hf : fgets XCF_BF_SIZE fp with
    | none => exact h
    | some r =>
      obtain ⟨buf, fp1⟩ := r
      simp only []
      split
      · exact StoreInv_CfReadLine buf cmt m h
      · exact ih _ fp1 _ (StoreInv_CfReadLine buf cmt m h)

theorem StoreInv_CfRead {cf : xcf_entry} (file : Option (List Char)) (cmt : Int) (m : Mem)
    (h : StoreInv cf) : StoreInv (CfRead cf file cmt m).2.1 := by
  cases file with
  | none => exact h
  | some fp => exact StoreInv_CfReadLoop cmt _ cf fp m h

theorem ReachableRead.inv {cf : xcf_entry} (h : ReachableRead cf) : StoreInv cf := by
  induction h with
  | create max m cf hc =>
    refine ⟨[], ?_, by simp, by simp [regularKeysDistinct]⟩
    rw [CfCreate_some hc]
    simp [storeOf, slots]
  | setKey cf key value m _ ih => exact StoreInv_CfSetKey key value m ih
  | setBool cf key value m _ ih => exact StoreInv_CfSetKey key _ m ih
  | setStr cf key value m _ ih =>
    unfold CfSetStr
    rcases malloc m with ⟨b, m1⟩
    cases b
    · exact ih
    · exact StoreInv_CfSetKey key _ m1 ih
  | read cf file cmt m _ ih => exact StoreInv_CfRead file cmt m ih

theorem filter_nodup_index {p : CStr → Bool} :
    ∀ (l : List CStr) (i j : Nat) (k : CStr), (l.filter p).Nodup → p k = true →
      l[i]? = some k → l[j]? = some k → i = j := by
  intro l
  induction l with
  | nil => intro i j k _ _ hi _; simp at hi
  | cons a l ih =>
    intro i j k hnd hp hi hj
    have hnd2 : (l.filter p).Nodup := by
      rw [List.filter_cons] at hnd
      split at hnd
      · exact (List.nodup_cons.mp hnd).2
      · exact hnd
    cases i with
    | zero =>
      cases j with
      | zero => rfl
      | succ j =>
        exfalso
        simp only [List.getElem?_cons_zero, Option.some.injEq] at hi
        simp only [List.getElem?_cons_succ] at hj
        subst hi
        rw [List.filter_cons, if_pos hp] at hnd
        exact (List.nodup_cons.mp hnd).1 (List.mem_filter.mpr ⟨List.getElem?_mem hj, hp⟩)
    | succ i =>
      cases j with
      | zero =>
        exfalso
        simp only [List.getElem?_cons_zero, Option.some.injEq] at hj
        simp only [List.getElem?_cons_succ] at hi
        subst hj
        rw [List.filter_cons, if_pos hp] at hnd
        exact (List.nodup_cons.mp hnd).1 (List.mem_filter.mpr ⟨List.getElem?_mem hi, hp⟩)
      | succ j =>
        simp only [List.getElem?_cons_succ] at hi hj
        rw [ih i j k hnd2 hp hi hj]

theorem not_isRegularKey (k : CStr) :
    isRegularKey k = false ↔ (k = [] ∨ beginsWithMarker k = true) := by
  cases k with
  | nil => simp [isRegularKey]
  | cons c cs =>
    simp only [isRegularKey, beginsWithMarker, reduceCtorEq, false_or]
    cases h1 : (c == '#') <;> cases h2 : (c == ';') <;> simp_all

/-- C18 as stated fails. From `CfCreate(2)`, two calls of `CfSetKey` with the
key `#a` succeed and leave a store whose two slots both hold `#a`, a key that
is neither empty nor `#` nor `;`. -/
theorem C18_counterexample :
    (CfCreate 2 []).1 = some ⟨[none, none], [none, none], 2⟩ ∧
      CfSetKey ⟨[none, none], [none, none], 2⟩ "#a".toList "1".toList [] =
        (0, ⟨[some "#a".toList, none], [some "1".toList, none], 2⟩, []) ∧
      CfSetKey ⟨[some "#a".toList, none], [some "1".toList, none], 2⟩
        "#a".toList "2".toList [] =
        (0, ⟨[some "#a".toList, some "#a".toList],
          [some "1".toList, some "2".toList], 2⟩, []) ∧
      "#a".toList ≠ [] ∧ "#a".toList ≠ "#".toList ∧ "#a".toList ≠ ";".toList := by
  decide

/-- C18, amended: in every store reachable from `CfCreate` through `CfSetKey`,
`CfSetBool`, `CfSetStr` and `CfRead`, no two occupied slots hold equal key
strings, other than the keys that `CfSetKey` always appends: the empty key and
the keys that begin with `#` or `;`. -/
theorem C18_key_uniqueness (cf : xcf_entry) (hr : ReachableRead cf) (i j : Nat) (k : CStr)
    (hi : cf.keys.getD i none = some k) (hj : cf.keys.getD j none = some k) (hij : i ≠ j) :
    k = [] ∨ beginsWithMarker k = true := by
  obtain ⟨es, h1, -, h3⟩ := hr.inv
  rw [h1, storeOf_keys_getD] at hi hj
  rw [← not_isRegularKey]
  cases hk : isRegularKey k with
  | false => rfl
  | true => exact absurd (filter_nodup_index _ i j k h3 hk hi hj) hij

/-- C18, amended, on the store read from a file with the comment `# note`
twice, with comment preservation. -/
theorem C18_key_uniqueness_witness :
    (CfRead ⟨[none, none], [none, none], 2⟩
        (some "# note\n# note\n".toList) 1 []).2.1.keys.getD 0 none = some "#".toList ∧
      (CfRead ⟨[none, none], [none, none], 2⟩
        (some "# note\n# note\n".toList) 1 []).2.1.keys.getD 1 none = some "#".toList ∧
      ("#".toList = [] ∨ beginsWithMarker "#".toList = true) :=
  ⟨by decide, by decide, C18_key_uniqueness
    (CfRead ⟨[none, none], [none, none], 2⟩ (some "# note\n# note\n".toList) 1 []).2.1
    (ReachableRead.read _ _ _ _ (ReachableRead.create 2 [] _ (by decide)))
    0 1 "#".toList (by decide) (by decide) (by decide)⟩

/-! ## C19: CfSetKey and the other keys -/

/-- The loop of `xCfFind` only looks at which cells hold the key. -/
theorem xCfFindLoop_congr {a b : List (Option CStr)} {key : CStr}
    (h : ∀ t, a.getD t none = some key ↔ b.getD t none = some key) :
    ∀ (n i : Nat), xCfFindLoop a key n i = xCfFindLoop b key n i := by
  intro n
  induction n with
  | zero => intro i; rfl
  | succ n ih =>
    intro i
    cases hf : xCfFindLoop a key (n + 1) i with
    | none =>
      symm
      cases hg : xCfFindLoop b key (n + 1) i with
      | none => rfl
      | some j =>
        obtain ⟨g1, g2, g3, -⟩ := xCfFindLoop_some hg
        exact absurd ((h j).mpr g3) (xCfFindLoop_none hf j g1 g2)
    | some j =>
      obtain ⟨f1, f2, f3, f4⟩ := xCfFindLoop_some hf
      symm
      exact xCfFindLoop_first f1 f2 ((h j).mp f3) (fun t t1 t2 e => f4 t t1 t2 ((h t).mpr e))

/-- C19: `CfSetKey` touches only its own key. For every well-formed store, all
keys `k` and `k2` with `k2` different from `k`, and every value, `CfGetKey` for
`k2` returns the same result after `CfSetKey` for `k` as before it, whether
the call succeeds or fails. -/
theorem C19_other_keys_untouched (cf : xcf_entry) (k k2 v : CStr) (m : Mem)
    (_hwf : WellFormed cf) (hne : k2 ≠ k) :
    CfGetKey (CfSetKey cf k v m).2.1 k2 = CfGetKey cf k2 := by
  cases hl : (if isRegularKey k then xCfFind cf.keys cf.max k else none) with
  | some e =>
    rw [CfSetKey_update v m hl]
    cases (malloc m).1
    · rfl
    · have hek : cf.keys.getD e none = some k := by
        cases hk : isRegularKey k with
        | false => rw [hk] at hl; simp at hl
        | true =>
          rw [hk, if_pos rfl] at hl
          exact (xCfFindLoop_some hl).2.2.1
      simp only [if_true, CfGetKey]
      cases hf : xCfFind cf.keys cf.max k2 with
      | none => rfl
      | some e2 =>
        have he2 : cf.keys.getD e2 none = some k2 := (xCfFindLoop_some hf).2.2.1
        have : e ≠ e2 := by
          intro h
          subst h
          rw [hek] at he2
          exact hne (Option.some.inj he2).symm
        exact getD_set_other _ this
  | none =>
    rcases first_free_or_full cf.keys cf.max.toNat with hfull | ⟨j, h1, h2, h3⟩
    · rw [CfSetKey_full v m hl hfull]
    · rw [CfSetKey_add v m hl h1 h2 h3]
      cases (malloc m).1
      · rfl
      · cases (malloc (malloc m).2).1
        · rfl
        · have hcongr : ∀ t, (cf.keys.set j (some k)).getD t none = some k2 ↔
              cf.keys.getD t none = some k2 := by
            intro t
            by_cases htj : j = t
            · subst htj
              rw [h2]
              by_cases hjl : j < cf.keys.length
              · rw [getD_set_self _ hjl]
                simp only [Option.some.injEq, reduceCtorEq, iff_false]
                exact fun e => hne e.symm
              · rw [List.set_eq_of_length_le (Nat.le_of_not_lt hjl), h2]
            · rw [getD_set_other _ htj]
          have hfind : xCfFind (cf.keys.set j (some k)) cf.max k2 = xCfFind cf.keys cf.max k2 :=
            xCfFindLoop_congr hcongr _ _
          simp only [if_true, CfGetKey, hfind]
          cases hf : xCfFind cf.keys cf.max k2 with
          | none => rfl
          | some e2 =>
            have he2 : cf.keys.getD e2 none = some k2 := (xCfFindLoop_some hf).2.2.1
            have : j ≠ e2 := by
              intro h
              subst h
              rw [h2] at he2
              exact absurd he2 (by simp)
            exact getD_set_other _ this

/-- C19 on a store of three slots: setting `year` (present), `pages` (new) or
failing to set `pages` leaves the value of `title` as it was. -/
theorem C19_other_keys_untouched_witness :
    CfGetKey (CfSetKey ⟨[some "title".toList, some "year".toList, none],
        [some "x".toList, some "1969".toList, none], 3⟩
        "year".toList "1977".toList []).2.1 "title".toList =
        CfGetKey ⟨[some "title".toList, some "year".toList, none],
          [some "x".toList, some "1969".toList, none], 3⟩ "title".toList ∧
      CfGetKey (CfSetKey ⟨[some "title".toList, some "year".toList, none],
        [some "x".toList, some "1969".toList, none], 3⟩
        "pages".toList "150".toList [true, false]).2.1 "title".toList =
        CfGetKey ⟨[some "title".toList, some "year".toList, none],
          [some "x".toList, some "1969".toList, none], 3⟩ "title".toList :=
  ⟨C19_other_keys_untouched _ "year".toList "title".toList "1977".toList []
      (by decide) (by decide),
    C19_other_keys_untouched _ "pages".toList "title".toList "150".toList [true, false]
      (by decide) (by decide)⟩

/-! ## C20: the round trip, slot by slot -/

/-- C20 as stated fails when memory runs out. The store of one slot holding
`a = 1` is of the kind the claim describes and `CfWrite` emits `a = 1` for it,
but `CfRead` of that text into the fresh store made by `CfCreate(1)` returns
`-1` when its first allocation fails. -/
theorem C20_counterexample :
    fileEntry ("a".toList, "1".toList) = true ∧
      CfWrite (storeOf 1 [("a".toList, "1".toList)]) true true =
        (0, some "a = 1\n".toList) ∧
      (CfCreate 1 []).1 = some ⟨[none], [none], 1⟩ ∧
      CfRead ⟨[none], [none], 1⟩ (some "a = 1\n".toList) 1 [false] =
        (-1, ⟨[none], [none], 1⟩, []) := by
  decide

/-- C20, amended: for every store whose occupied slots form a prefix and in
which each entry is one a file can carry (a valid key name, distinct from the
other looked-up keys, with a non-empty value that has no newline and no space
or tab at its ends, on a line of at most 128 characters; or the key `#` or
`;` with such a text, possibly empty; or the empty key with the empty value),
`CfRead` with comment preservation of the text emitted by `CfWrite`, into a
fresh store of capacity at least the number of entries, succeeds when every
memory allocation does, and produces the same key and the same value in every
slot, in the same order. -/
theorem C20_roundtrip_slots (max M cmt : Int) (es : List (CStr × CStr)) (fresh : xcf_entry)
    (m0 m : Mem) (hlen : es.length ≤ max.toNat) (hfile : ∀ e ∈ es, fileEntry e = true)
    (hdist : regularKeysDistinct es) (hfresh : (CfCreate M m0).1 = some fresh)
    (hM : es.length ≤ M.toNat) (hcmt : cmt ≠ 0) (hm : ∀ b ∈ m, b = true) :
    (CfRead fresh (CfWrite (storeOf max es) true true).2 cmt m).1 = 0 ∧
      (CfRead fresh (CfWrite (storeOf max es) true true).2 cmt m).2.1 = storeOf M es ∧
      (∀ i, (CfRead fresh (CfWrite (storeOf max es) true true).2 cmt m).2.1.keys.getD i none =
          (storeOf max es).keys.getD i none ∧
        (CfRead fresh (CfWrite (storeOf max es) true true).2 cmt m).2.1.values.getD i none =
          (storeOf max es).values.getD i none) ∧
      entries (CfRead fresh (CfWrite (storeOf max es) true true).2 cmt m).2.1 =
        entries (storeOf max es) := by
  have hf : fresh = storeOf M [] := by
    rw [CfCreate_some hfresh]
    simp [storeOf, slots]
  obtain ⟨r1, r2⟩ := CfReadLoop_fileEntries M hcmt es []
    ((es.flatMap (fun e => CfWriteSlot (some e.1) (some e.2))).length + 1) m hfile
    (by simpa using hdist) (by simpa using hM) hm (Nat.lt_succ_self _)
  have hread : CfRead fresh (CfWrite (storeOf max es) true true).2 cmt m =
      CfReadLoop ((es.flatMap (fun e => CfWriteSlot (some e.1) (some e.2))).length + 1)
        (storeOf M []) (es.flatMap (fun e => CfWriteSlot (some e.1) (some e.2))) cmt m := by
    simp only [CfWrite, if_true, CfRead, CfWriteText_storeOf hlen, hf]
  rw [hread, r2, List.nil_append]
  refine ⟨r1, rfl, ?_, ?_⟩
  · intro i
    simp only [storeOf, slots_getD, and_self]
  · rw [entries_storeOf hM, entries_storeOf hlen]

/-- C20, amended, on a store of four slots holding a comment, a blank entry
and a key / value pair, read back into a fresh store of three slots. -/
theorem C20_roundtrip_slots_witness :
    (CfRead ⟨[none, none, none], [none, none, none], 3⟩
        (CfWrite (storeOf 4 [("#".toList, "a note".toList), ([], []),
          ("year".toList, "1969".toList)]) true true).2 1 []).1 = 0 ∧
      (CfRead ⟨[none, none, none], [none, none, none], 3⟩
        (CfWrite (storeOf 4 [("#".toList, "a note".toList), ([], []),
          ("year".toList, "1969".toList)]) true true).2 1 []).2.1 =
        storeOf 3 [("#".toList, "a note".toList), ([], []), ("year".toList, "1969".toList)] ∧
      (∀ i, (CfRead ⟨[none, none, none], [none, none, none], 3⟩
          (CfWrite (storeOf 4 [("#".toList, "a note".toList), ([], []),
            ("year".toList, "1969".toList)]) true true).2 1 []).2.1.keys.getD i none =
          (storeOf 4 [("#".toList, "a note".toList), ([], []),
            ("year".toList, "1969".toList)]).keys.getD i none ∧
        (CfRead ⟨[none, none, none], [none, none, none], 3⟩
          (CfWrite (storeOf 4 [("#".toList, "a note".toList), ([], []),
            ("year".toList, "1969".toList)]) true true).2 1 []).2.1.values.getD i none =
          (storeOf 4 [("#".toList, "a note".toList), ([], []),
            ("year".toList, "1969".toList)]).values.getD i none) ∧
      entries (CfRead ⟨[none, none, none], [none, none, none], 3⟩
        (CfWrite (storeOf 4 [("#".toList, "a note".toList), ([], []),
          ("year".toList, "1969".toList)]) true true).2 1 []).2.1 =
        entries (storeOf 4 [("#".toList, "a note".toList), ([], []),
          ("year".toList, "1969".toList)]) :=
  C20_roundtrip_slots 4 3 1 [("#".toList, "a note".toList), ([], []),
    ("year".toList, "1969".toList)] ⟨[none, none, none], [none, none, none], 3⟩ [] []
    (by decide) (by decide) (by decide) (by decide) (by decide) (by decide) (by simp)

end Cf
